import Mathlib

/-!
Verification of the terrafig dependency-graph engine.

This file gives a shallow embedding of the Go sources (`graph.go`,
`resource.go`, the main/types/module/util files) and proves properties
about the embedded functions.

Modelling conventions:
* Go maps are embedded as association lists; map assignment is
  insert-or-overwrite (`insertNode`, `refsSet`), map read with zero-value
  default (`refsGet`, `lookupNode`).  Go map iteration order is
  unspecified; the embedding iterates in insertion order, a deterministic
  stand-in.  No theorem below depends on a particular iteration order in a
  way the Go program would not also exhibit for some order.
* The HCL parsing front end (hclparse / hcl.Body) is an external
  collaborator: a parsed file is a `TFFile` carrying `Option (List Block)`
  (`none` models a parse diagnostic, making the file skipped), and
  `Body.Content` with a schema is modelled by `contentBlocks`, which
  filters blocks to the schema's types.  An attribute carries the list of
  variable traversals (`Expr.Variables()`) and the optional statically
  evaluated string value (`Expr.Value(nil)` followed by `AsString`,
  `none` when evaluation diagnoses an error or yields a non-string).
* The file system (`filepath.Walk`, `os.Stat`, `filepath.Join`,
  `filepath.Clean`, `filepath.IsAbs`) is likewise external and lives in
  `Env` as abstract functions.
* Go integers are embedded as `Nat` (depths start at 0 and only ever
  increment; `maxDepth` is a configured bound).
* The recursive traversal terminates in Go because every recursive
  `traverseNode` call increments `depth` and the guard stops at
  `depth > maxDepth`.  The embedding makes the traversal structurally
  total with a fuel parameter; `none` means the fuel ran out, and a
  sufficiency theorem shows fuel `maxDepth + 2` never runs out, which is
  the embedded form of the Go program's termination.
-/

set_option maxRecDepth 100000

namespace Terrafig

/-- One step of an `hcl.Traversal`: `TraverseRoot`, `TraverseAttr` or
`TraverseIndex` (the index key together with whether its cty type is
`string`). -/
inductive Traverser where
  | root (name : String)
  | attr (name : String)
  | index (isStringKey : Bool) (key : String)
  deriving DecidableEq, Repr

/-- One HCL attribute: its name, the variable traversals its expression
contains, and the statically evaluated string value of the expression
(`none` if not statically evaluable to a string). -/
structure Attr where
  name : String
  vars : List (List Traverser)
  staticVal : Option String
  deriving DecidableEq, Repr

/-- One HCL block: type tag, labels, attributes. -/
structure Block where
  type : String
  labels : List String
  attrs : List Attr
  deriving DecidableEq, Repr

/-- A discovered `.tf` file: its path and its parsed blocks (`none` when
parsing produced diagnostics, which makes every consumer skip the file). -/
structure TFFile where
  path : String
  blocks : Option (List Block)
  deriving DecidableEq, Repr

/-- `Reference` from the types file: a referenced identifier and the file
path it was observed in. -/
structure Reference where
  ID : String
  Path : String
  deriving DecidableEq, Repr

/-- `Node` from the types file.  `References` is the Go
`map[string][]Reference` as an association list from category to
reference list. -/
structure Node where
  ID : String
  type : String
  Name : String
  Path : String
  References : List (String × List Reference)
  Depth : Nat
  deriving DecidableEq, Repr

/-- `Graph` from the types file.  `Nodes` is the Go `map[string]Node` as
an association list with insert-or-overwrite semantics. -/
structure Graph where
  Nodes : List (String × Node)
  MaxDepth : Nat
  deriving DecidableEq, Repr

/-- The external collaborators: file discovery (`findTerraformFiles`,
i.e. `filepath.Walk` collecting `.tf` files plus the HCL parser) and the
path/stat functions from `path/filepath` and `os`. -/
structure Env where
  files : String → List TFFile
  dirExists : String → Bool
  joinPath : String → String → String
  cleanPath : String → String
  isAbsPath : String → Bool

/-- Go's zero `Node{}` value. -/
def emptyNode : Node :=
  { ID := "", type := "", Name := "", Path := "", References := [], Depth := 0 }

/-- Go map assignment `m[k] = n` on the association-list embedding:
overwrite the existing binding in place, or append a new one. -/
def insertNode : List (String × Node) → String → Node → List (String × Node)
  | [], k, n => [(k, n)]
  | (k₀, n₀) :: rest, k, n =>
    if k₀ = k then (k, n) :: rest else (k₀, n₀) :: insertNode rest k n

/-- Go map read `m[k]` (as `Option` instead of the zero value). -/
def lookupNode : List (String × Node) → String → Option Node
  | [], _ => none
  | (k₀, n₀) :: rest, k => if k₀ = k then some n₀ else lookupNode rest k

/-- Go `strings.HasPrefix`, on the character-list view (kernel-computable,
unlike `String.startsWith`). -/
def strStartsWith (s pre : String) : Bool :=
  pre.toList.isPrefixOf s.toList

/-- Go `strings.TrimPrefix`. -/
def strTrimPre (s pre : String) : String :=
  if strStartsWith s pre then String.mk (s.toList.drop pre.toList.length) else s

/-- The worker of `strSplitDot`. -/
def strSplitDotAux : List Char → List Char → List String
  | [], acc => [String.mk acc.reverse]
  | c :: cs, acc =>
    if c = '.' then String.mk acc.reverse :: strSplitDotAux cs []
    else strSplitDotAux cs (c :: acc)

/-- Go `strings.Split(s, ".")`. -/
def strSplitDot (s : String) : List String :=
  strSplitDotAux s.toList []

/-- Go `strings.SplitN(s, ".", 2)`: split at the first dot only. -/
def splitN2 (s : String) : List String :=
  if s.toList.contains '.' then
    [String.mk (s.toList.takeWhile (· ≠ '.')),
     String.mk ((s.toList.dropWhile (· ≠ '.')).tail)]
  else [s]

/-- Go `strings.Join(parts, ".")`. -/
def joinDots : List String → String
  | [] => ""
  | [s] => s
  | s :: rest => s ++ "." ++ joinDots rest

/-- `traversalToReference` (resource.go): build the dotted path of a
traversal; an index contributes its key only when the key is a string. -/
def traversalToReference (traversal : List Traverser) : String :=
  joinDots (traversal.foldl (fun parts t =>
    match t with
    | .root n => parts ++ [n]
    | .attr n => parts ++ [n]
    | .index isStr k => if isStr then parts ++ [k] else parts) [])

/-- `appendUniqueReference` (resource.go): append unless an entry with the
same ID already exists (in which case the slice is returned unchanged). -/
def appendUniqueReference : List Reference → Reference → List Reference
  | [], element => [element]
  | existing :: rest, element =>
    if existing.ID = element.ID then existing :: rest
    else existing :: appendUniqueReference rest element

/-- Go map read `refs[cat]` with the zero value `[]` for a missing key. -/
def refsGet (m : List (String × List Reference)) (cat : String) : List Reference :=
  match m.find? (fun p => p.1 == cat) with
  | some p => p.2
  | none => []

/-- Go map assignment `refs[cat] = v`. -/
def refsSet : List (String × List Reference) → String → List Reference → List (String × List Reference)
  | [], cat, v => [(cat, v)]
  | (c, rs) :: rest, cat, v =>
    if c = cat then (cat, v) :: rest else (c, rs) :: refsSet rest cat v

/-- `extractReferences` (resource.go): for every attribute, for every
variable traversal, build the dotted path, drop it if empty or without a
dot (fewer than two segments), classify by the first segment and append
uniquely to the category's slice.  The stored `Reference.ID` is the full
dotted path. -/
def extractReferences (block : Block) (filePath : String) : List (String × List Reference) :=
  block.attrs.foldl (fun refs attr =>
    attr.vars.foldl (fun refs v =>
      let ref := traversalToReference v
      if ref = "" then refs
      else
        let parts := splitN2 ref
        if parts.length < 2 then refs
        else
          let pfx := parts.headD ""
          let reference : Reference := { ID := ref, Path := filePath }
          if pfx = "var" then
            refsSet refs "variable" (appendUniqueReference (refsGet refs "variable") reference)
          else if pfx = "module" then
            refsSet refs "module" (appendUniqueReference (refsGet refs "module") reference)
          else if pfx = "data" then
            refsSet refs "data" (appendUniqueReference (refsGet refs "data") reference)
          else
            refsSet refs "resource" (appendUniqueReference (refsGet refs "resource") reference))
      refs) []

/-- `getBlockID` (resource.go). -/
def getBlockID (block : Block) : String :=
  if block.type = "resource" then block.labels.getD 0 "" ++ "." ++ block.labels.getD 1 ""
  else if block.type = "module" then "module." ++ block.labels.getD 0 ""
  else if block.type = "data" then "data." ++ block.labels.getD 0 "" ++ "." ++ block.labels.getD 1 ""
  else if block.type = "output" then "output." ++ block.labels.getD 0 ""
  else ""

/-- `hcl.Body.Content` with a block schema, modelled as keeping the blocks
whose type the schema names (`none` propagates a parse failure). -/
def contentBlocks (schema : List String) (f : TFFile) : Option (List Block) :=
  match f.blocks with
  | none => none
  | some bs => some (bs.filter (fun b => schema.contains b.type))

/-- The schema used by `findResourceNode` (resource.go). -/
def locatorSchema : List String :=
  ["resource", "module", "data", "variable", "output", "provider", "terraform", "locals"]

/-- The schema used by `traverseModuleDirectory` (module file). -/
def moduleSchema : List String :=
  ["resource", "data", "module", "output"]

/-- `findNodeInBlocks` (resource.go): first block whose computed ID equals
the target; its Node carries the extracted references (Go zero `Depth`). -/
def findNodeInBlocks : List Block → String → String → Option Node
  | [], _, _ => none
  | block :: rest, nodeID, file =>
    let currentID := getBlockID block
    if currentID = nodeID then
      some { ID := currentID, type := block.type, Name := block.labels.getLastD "",
             Path := file, References := extractReferences block file, Depth := 0 }
    else findNodeInBlocks rest nodeID file

/-- The file loop of `findResourceNode`: skip files with diagnostics,
return the first match. -/
def findInFiles : List TFFile → String → Option Node
  | [], _ => none
  | f :: rest, nodeID =>
    match contentBlocks locatorSchema f with
    | none => findInFiles rest nodeID
    | some blocks =>
      match findNodeInBlocks blocks nodeID f.path with
      | some node => some node
      | none => findInFiles rest nodeID

/-- `findResourceNode` (resource.go), the Declaration Locator. -/
def findResourceNode (env : Env) (basePath nodeID : String) : Option Node :=
  findInFiles (env.files basePath) nodeID

/-- The block loop of `findModuleNode`: first module block with the wanted
label whose `source` attribute is a static string beginning with `"."`
and whose joined directory exists; every failed condition falls through
to the next block. -/
def scanModuleBlocks (env : Env) (basePath moduleID moduleName file : String) :
    List Block → Option (String × Node)
  | [] => none
  | block :: rest =>
    if block.type = "module" ∧ block.labels.getD 0 "" = moduleName then
      match block.attrs.find? (fun a => a.name == "source") with
      | none => scanModuleBlocks env basePath moduleID moduleName file rest
      | some sourceAttr =>
        match sourceAttr.staticVal with
        | none => scanModuleBlocks env basePath moduleID moduleName file rest
        | some sourcePath =>
          if strStartsWith sourcePath "." then
            let absolutePath := env.joinPath basePath sourcePath
            if env.dirExists absolutePath then
              some (absolutePath,
                { ID := moduleID, type := "module", Name := moduleName, Path := file,
                  References := extractReferences block file, Depth := 0 })
            else scanModuleBlocks env basePath moduleID moduleName file rest
          else scanModuleBlocks env basePath moduleID moduleName file rest
    else scanModuleBlocks env basePath moduleID moduleName file rest

/-- The file loop of `findModuleNode` (schema contains only `module`). -/
def scanModuleFiles (env : Env) (basePath moduleID moduleName : String) :
    List TFFile → Option (String × Node)
  | [] => none
  | f :: rest =>
    match contentBlocks ["module"] f with
    | none => scanModuleFiles env basePath moduleID moduleName rest
    | some blocks =>
      match scanModuleBlocks env basePath moduleID moduleName f.path blocks with
      | some r => some r
      | none => scanModuleFiles env basePath moduleID moduleName rest

/-- `findModuleNode` (module file), the Module Resolver.  The sentinel
`("", Node{})` reports failure, exactly as in the source. -/
def findModuleNode (env : Env) (basePath moduleID : String) : String × Node :=
  let moduleName := (splitN2 (strTrimPre moduleID "module.")).headD ""
  match scanModuleFiles env basePath moduleID moduleName (env.files basePath) with
  | some r => r
  | none => ("", emptyNode)

/-- `resolvePath` (util file). -/
def resolvePath (env : Env) (basePath relativePath : String) : String :=
  if env.isAbsPath relativePath then relativePath
  else env.cleanPath (env.joinPath basePath relativePath)

/-- The state threaded through one traversal run: the graph under
construction and the `processedNodes` visited set.  `none` means the
fuel of the embedding ran out (see `traverseNode`). -/
abbrev TravState := Graph × List String

/-- The type of the recursive entry point as seen by the loop helpers:
`graph → basePath → nodeID → depth → processedNodes → result`.  The
helpers receive the one-level-less-fuel `traverseNode` here, which keeps
the embedding structurally recursive on fuel (and hence computable by the
kernel). -/
abbrev TravRec := Graph → String → String → Nat → List String → Option TravState

/-- The reference loop of `processModuleReferences` (module file): prefix
the reference with the module identifier and recurse unless already
processed; `var.`/`local.` references are terminal. -/
def pmrRefList (tn : TravRec) (graph : Graph) (refs : List Reference)
    (moduleID : String) (depth : Nat) (processedNodes : List String)
    (moduleBasePath : String) : Option TravState :=
  match refs with
  | [] => some (graph, processedNodes)
  | ref :: refs =>
    let step : Option TravState :=
      if !(strStartsWith ref.ID "var.") && !(strStartsWith ref.ID "local.") then
        let moduleRef := moduleID ++ "/" ++ ref.ID
        if !(processedNodes.contains moduleRef) then
          tn graph moduleBasePath moduleRef (depth + 1) processedNodes
        else some (graph, processedNodes)
      else some (graph, processedNodes)
    match step with
    | none => none
    | some (graph, processedNodes) =>
      pmrRefList tn graph refs moduleID depth processedNodes moduleBasePath

/-- `processModuleReferences` (module file): the category loop. -/
def processModuleReferences (tn : TravRec) (graph : Graph)
    (refs : List (String × List Reference)) (moduleID : String) (depth : Nat)
    (processedNodes : List String) (moduleBasePath : String) : Option TravState :=
  match refs with
  | [] => some (graph, processedNodes)
  | cat :: cats =>
    match pmrRefList tn graph cat.2 moduleID depth processedNodes moduleBasePath with
    | none => none
    | some (graph, processedNodes) =>
      processModuleReferences tn graph cats moduleID depth processedNodes moduleBasePath

/-- `processModuleBlocks` (module file): register every schema block of a
module file under `moduleID ++ "/" ++ blockID` at `depth + 1` —
unconditionally, with no visited or presence check — then process its
references. -/
def processModuleBlocks (tn : TravRec) (graph : Graph) (blocks : List Block)
    (file moduleID : String) (depth : Nat) (processedNodes : List String)
    (moduleBasePath : String) : Option TravState :=
  match blocks with
  | [] => some (graph, processedNodes)
  | block :: blocks =>
    let currentID := getBlockID block
    if currentID = "" then
      processModuleBlocks tn graph blocks file moduleID depth processedNodes moduleBasePath
    else
      let refs := extractReferences block file
      let moduleResourceNode : Node :=
        { ID := moduleID ++ "/" ++ currentID, type := block.type,
          Name := block.labels.getLastD "", Path := file, References := refs,
          Depth := depth + 1 }
      let graph := { graph with Nodes := insertNode graph.Nodes moduleResourceNode.ID moduleResourceNode }
      match processModuleReferences tn graph refs moduleID depth processedNodes moduleBasePath with
      | none => none
      | some (graph, processedNodes) =>
        processModuleBlocks tn graph blocks file moduleID depth processedNodes moduleBasePath

/-- The file loop of `traverseModuleDirectory` (parse failures skip the
file). -/
def tmdFiles (tn : TravRec) (graph : Graph) (moduleBasePath moduleID : String)
    (depth : Nat) (processedNodes : List String) (files : List TFFile) :
    Option TravState :=
  match files with
  | [] => some (graph, processedNodes)
  | f :: rest =>
    match contentBlocks moduleSchema f with
    | none => tmdFiles tn graph moduleBasePath moduleID depth processedNodes rest
    | some blocks =>
      match processModuleBlocks tn graph blocks f.path moduleID depth processedNodes moduleBasePath with
      | none => none
      | some (graph, processedNodes) =>
        tmdFiles tn graph moduleBasePath moduleID depth processedNodes rest

/-- `traverseModuleDirectory` (module file). -/
def traverseModuleDirectory (env : Env) (tn : TravRec) (graph : Graph)
    (moduleBasePath moduleID : String) (depth : Nat) (processedNodes : List String) :
    Option TravState :=
  let files := env.files moduleBasePath
  if files.isEmpty then some (graph, processedNodes)
  else tmdFiles tn graph moduleBasePath moduleID depth processedNodes files

/-- The inner reference loop of `traverseNode`: recurse at `depth + 1` on
every reference whose ID has neither a `var.` nor a `local.` prefix. -/
def traverseRefList (tn : TravRec) (graph : Graph) (basePath : String)
    (depth : Nat) (processedNodes : List String) (refs : List Reference) :
    Option TravState :=
  match refs with
  | [] => some (graph, processedNodes)
  | ref :: refs =>
    let step : Option TravState :=
      if !(strStartsWith ref.ID "var.") && !(strStartsWith ref.ID "local.") then
        tn graph basePath ref.ID (depth + 1) processedNodes
      else some (graph, processedNodes)
    match step with
    | none => none
    | some (graph, processedNodes) =>
      traverseRefList tn graph basePath depth processedNodes refs

/-- The outer reference loop of `traverseNode` (`for category, refs :=
range node.References`). -/
def traverseRefCats (tn : TravRec) (graph : Graph) (basePath : String)
    (depth : Nat) (processedNodes : List String) (cats : List (String × List Reference)) :
    Option TravState :=
  match cats with
  | [] => some (graph, processedNodes)
  | cat :: cats =>
    match traverseRefList tn graph basePath depth processedNodes cat.2 with
    | none => none
    | some (graph, processedNodes) =>
      traverseRefCats tn graph basePath depth processedNodes cats

/-- `traverseNode` (graph.go), the Graph Traverser core.  The state
`(Graph, processedNodes)` is threaded explicitly; the `fuel` parameter
makes the recursion structural (`none` = fuel exhausted; fuel
`MaxDepth + 2` is always enough, see the sufficiency theorem below,
which is the embedded form of the Go program's termination: every
recursive call is at `depth + 1` and the first guard returns at
`depth > MaxDepth`).  The loop helpers receive `traverseNode env fuel`
for the recursive expansions. -/
def traverseNode (env : Env) : Nat → TravRec
  | 0 => fun _ _ _ _ _ => none
  | fuel + 1 => fun graph basePath nodeID depth processedNodes =>
    if depth > graph.MaxDepth ∨ processedNodes.contains nodeID = true then
      some (graph, processedNodes)
    else
      let processedNodes := nodeID :: processedNodes
      let afterModule : Option TravState :=
        if strStartsWith nodeID "module." then
          -- moduleName := strings.Split(nodeID, ".")[1]; then truncate at a
          -- further dot (nested module attributes such as module.name.email)
          let moduleName₀ := (strSplitDot nodeID).getD 1 ""
          let moduleName :=
            if (splitN2 moduleName₀).length > 1 then (splitN2 moduleName₀).headD ""
            else moduleName₀
          let pm := findModuleNode env basePath ("module." ++ moduleName)
          if pm.1 ≠ "" then
            let moduleNode := { pm.2 with Depth := depth }
            let graph := { graph with Nodes := insertNode graph.Nodes nodeID moduleNode }
            let moduleSourcePath := resolvePath env basePath pm.1
            traverseModuleDirectory env (traverseNode env fuel) graph moduleSourcePath
              ("module." ++ moduleName) depth processedNodes
          else some (graph, processedNodes)
        else some (graph, processedNodes)
      match afterModule with
      | none => none
      | some (graph, processedNodes) =>
        match findResourceNode env basePath nodeID with
        | none => some (graph, processedNodes)
        | some node =>
          let node := { node with Depth := depth }
          let graph := { graph with Nodes := insertNode graph.Nodes nodeID node }
          traverseRefCats (traverseNode env fuel) graph basePath depth processedNodes node.References

/-- `buildDependencyGraph` (main file): one traversal run from the target
at depth 0 with a fresh visited set.  Fuel `MaxDepth + 2` is always
sufficient (proved below). -/
def buildDependencyGraph (env : Env) (graph : Graph) (basePath targetID : String) :
    Option (Graph × List String) :=
  traverseNode env (graph.MaxDepth + 2) graph basePath targetID 0 []

/-- The color map of `writeNodes` (graph.go). -/
def dotColors : List (String × String) :=
  [("variable", "#FFB6C1"), ("module", "#98FB98"), ("data", "#87CEEB"),
   ("resource", "#DDA0DD"), ("output", "#FFA07A")]

/-- Go map read `colors[category]` with zero value `""`. -/
def colorFor (category : String) : String :=
  match dotColors.find? (fun p => p.1 == category) with
  | some p => p.2
  | none => ""

/-- `writeNodeStyles` (graph.go). -/
def writeNodeStyles : String :=
  "  // Node styles\n  node [shape=box, style=rounded];\n\n"

/-- The root-node line of `writeNodes`. -/
def nodeLineRoot (id : String) (node : Node) : String :=
  "  \"" ++ id ++ "\" [label=\"" ++ id ++ "\\n(" ++ node.Path ++ ")\", color=red];\n"

/-- The referenced-node line of `writeNodes`. -/
def refNodeLine (ref : Reference) (color : String) : String :=
  "  \"" ++ ref.ID ++ "\" [label=\"" ++ ref.ID ++ "\\n(" ++ ref.Path ++
  ")\", fillcolor=\"" ++ color ++ "\", style=\"filled,rounded\"];\n"

/-- `writeNodes` (graph.go): the highlighted line for every depth-0 node,
then one styled line per reference of every depth-0 node. -/
def writeNodes (graph : Graph) : String :=
  (graph.Nodes.foldl (fun acc p =>
    if p.2.Depth == 0 then acc ++ nodeLineRoot p.1 p.2 else acc) "")
  ++ "\n  // Referenced nodes\n"
  ++ graph.Nodes.foldl (fun acc p =>
    if p.2.Depth == 0 then
      p.2.References.foldl (fun acc cat =>
        let color₀ := colorFor cat.1
        let color := if color₀ == "" then "#DCDCDC" else color₀
        cat.2.foldl (fun acc ref => acc ++ refNodeLine ref color) acc) acc
    else acc) ""

/-- `writeDependencies` (graph.go): one solid edge from every reference of
every depth-0 node into that node. -/
def writeDependencies (graph : Graph) : String :=
  "\n  // Dependencies\n"
  ++ graph.Nodes.foldl (fun acc p =>
    if p.2.Depth == 0 then
      p.2.References.foldl (fun acc cat =>
        cat.2.foldl (fun acc ref =>
          acc ++ "  \"" ++ ref.ID ++ "\" -> \"" ++ p.2.ID ++ "\" [style=solid];\n") acc) acc
    else acc) ""

/-- `generateDOT` (graph.go), the Diagram Serializer. -/
def generateDOT (graph : Graph) : String :=
  "digraph terraform \x7b\n" ++ "  rankdir = LR;\n" ++ "  compound = true;\n\n"
  ++ writeNodeStyles ++ writeNodes graph ++ writeDependencies graph ++ "\x7d\n"

/-! ### Basic lemmas about the association-list maps -/

theorem insertNode_cons_self (k : String) (n n₀ : Node) (rest : List (String × Node)) :
    insertNode ((k, n₀) :: rest) k n = (k, n) :: rest := by
  simp [insertNode]

theorem insertNode_cons_ne (k₀ k : String) (n n₀ : Node) (rest : List (String × Node))
    (hk : k₀ ≠ k) : insertNode ((k₀, n₀) :: rest) k n = (k₀, n₀) :: insertNode rest k n := by
  simp [insertNode, hk]

theorem lookupNode_cons_self (k : String) (n₀ : Node) (rest : List (String × Node)) :
    lookupNode ((k, n₀) :: rest) k = some n₀ := by
  simp [lookupNode]

theorem lookupNode_cons_ne (k₀ k : String) (n₀ : Node) (rest : List (String × Node))
    (hk : k₀ ≠ k) : lookupNode ((k₀, n₀) :: rest) k = lookupNode rest k := by
  simp [lookupNode, hk]

theorem lookupNode_insertNode_self (l : List (String × Node)) (k : String) (n : Node) :
    lookupNode (insertNode l k n) k = some n := by
  induction l with
  | nil => simp [insertNode, lookupNode]
  | cons p rest ih =>
    obtain ⟨k₀, n₀⟩ := p
    by_cases h : k₀ = k
    · subst h
      rw [insertNode_cons_self, lookupNode_cons_self]
    · rw [insertNode_cons_ne _ _ _ _ _ h, lookupNode_cons_ne _ _ _ _ h, ih]

theorem lookupNode_insertNode_ne (l : List (String × Node)) (k k' : String) (n : Node)
    (h : k' ≠ k) : lookupNode (insertNode l k n) k' = lookupNode l k' := by
  induction l with
  | nil => simp [insertNode, lookupNode, Ne.symm h]
  | cons p rest ih =>
    obtain ⟨k₀, n₀⟩ := p
    by_cases hk : k₀ = k
    · subst hk
      rw [insertNode_cons_self, lookupNode_cons_ne _ _ _ _ (Ne.symm h),
        lookupNode_cons_ne _ _ _ _ (Ne.symm h)]
    · rw [insertNode_cons_ne _ _ _ _ _ hk]
      by_cases hk' : k₀ = k'
      · subst hk'
        rw [lookupNode_cons_self, lookupNode_cons_self]
      · rw [lookupNode_cons_ne _ _ _ _ hk', lookupNode_cons_ne _ _ _ _ hk', ih]

theorem mem_keys_of_mem_keys_insertNode (l : List (String × Node)) (k x : String) (n : Node)
    (h : x ∈ (insertNode l k n).map Prod.fst) : x ∈ l.map Prod.fst ∨ x = k := by
  induction l with
  | nil =>
    simp [insertNode] at h
    exact Or.inr h
  | cons p rest ih =>
    obtain ⟨k₀, n₀⟩ := p
    by_cases hk : k₀ = k
    · subst hk
      rw [insertNode_cons_self, List.map_cons] at h
      rcases List.mem_cons.mp h with h | h
      · exact Or.inr h
      · exact Or.inl (by rw [List.map_cons]; exact List.mem_cons_of_mem _ h)
    · rw [insertNode_cons_ne _ _ _ _ _ hk, List.map_cons] at h
      rcases List.mem_cons.mp h with h | h
      · exact Or.inl (by simp [h])
      · rcases ih h with h' | h'
        · exact Or.inl (by rw [List.map_cons]; exact List.mem_cons_of_mem _ h')
        · exact Or.inr h'

theorem keys_insertNode_nodup (l : List (String × Node)) (k : String) (n : Node)
    (h : (l.map Prod.fst).Nodup) : ((insertNode l k n).map Prod.fst).Nodup := by
  induction l with
  | nil => simp [insertNode]
  | cons p rest ih =>
    obtain ⟨k₀, n₀⟩ := p
    rw [List.map_cons, List.nodup_cons] at h
    by_cases hk : k₀ = k
    · subst hk
      rw [insertNode_cons_self, List.map_cons, List.nodup_cons]
      exact h
    · rw [insertNode_cons_ne _ _ _ _ _ hk, List.map_cons, List.nodup_cons]
      refine ⟨?_, ih h.2⟩
      intro hmem
      rcases mem_keys_of_mem_keys_insertNode rest k k₀ n hmem with h' | h'
      · exact h.1 h'
      · exact hk h'

theorem mem_of_lookupNode (l : List (String × Node)) (k : String) (n : Node)
    (h : lookupNode l k = some n) : (k, n) ∈ l := by
  induction l with
  | nil => simp [lookupNode] at h
  | cons p rest ih =>
    obtain ⟨k₀, n₀⟩ := p
    by_cases hk : k₀ = k
    · subst hk
      rw [lookupNode_cons_self, Option.some.injEq] at h
      subst h
      exact List.mem_cons_self _ _
    · rw [lookupNode_cons_ne _ _ _ _ hk] at h
      exact List.mem_cons_of_mem _ (ih h)

theorem lookupNode_eq_some_of_mem (l : List (String × Node)) (k : String) (n : Node)
    (hn : (l.map Prod.fst).Nodup) (h : (k, n) ∈ l) : lookupNode l k = some n := by
  induction l with
  | nil => simp at h
  | cons p rest ih =>
    obtain ⟨k₀, n₀⟩ := p
    rw [List.map_cons, List.nodup_cons] at hn
    rcases List.mem_cons.mp h with h₁ | h₁
    · have e1 : k = k₀ ∧ n = n₀ := Prod.mk.injEq .. ▸ h₁
      rcases e1 with ⟨e1, e2⟩
      subst e1
      subst e2
      rw [lookupNode_cons_self]
    · have hk : k₀ ≠ k := by
        intro he
        subst he
        have hmm := List.mem_map_of_mem Prod.fst h₁
        exact hn.1 hmm
      rw [lookupNode_cons_ne _ _ _ _ hk]
      exact ih hn.2 h₁

theorem lookupNode_eq_none_iff (l : List (String × Node)) (k : String) :
    lookupNode l k = none ↔ k ∉ l.map Prod.fst := by
  induction l with
  | nil => simp [lookupNode]
  | cons p rest ih =>
    obtain ⟨k₀, n₀⟩ := p
    by_cases hk : k₀ = k
    · subst hk
      rw [lookupNode_cons_self]
      simp
    · rw [lookupNode_cons_ne _ _ _ _ hk, List.map_cons]
      simp [ih, Ne.symm hk]

theorem contains_iff_mem {α : Type} [BEq α] [LawfulBEq α] (l : List α) (x : α) :
    l.contains x = true ↔ x ∈ l := by
  induction l with
  | nil => simp
  | cons a as ih =>
    simp only [List.contains_cons, Bool.or_eq_true, beq_iff_eq, ih, List.mem_cons]

/-- No `/` occurs in the identifier.  Module-internal graph keys always
contain one (they have the shape `moduleID ++ "/" ++ blockID`), so they
never collide with slash-free identifiers. -/
def NoSlash (s : String) : Prop := '/' ∉ s.toList

instance (s : String) : Decidable (NoSlash s) := by
  unfold NoSlash
  infer_instance

theorem not_noSlash_concat (a b : String) : ¬ NoSlash (a ++ "/" ++ b) := by
  intro h
  exact h (by simp [NoSlash, String.toList, String.data_append])

/-! ### The traversal invariant -/

/-- Invariant of one traversal step over the threaded state: the visited
set only grows, `MaxDepth` is untouched, key-uniqueness of the node map
is preserved, bindings of already-visited slash-free identifiers are
untouched, and every new or changed binding either is the call's own
node (`sid = some nodeID`, registered at this call's depth) or lies
strictly deeper than this call. -/
def stepInv (d : Nat) (sid : Option String) (g : Graph) (v : List String)
    (g' : Graph) (v' : List String) : Prop :=
  (∀ x, x ∈ v → x ∈ v') ∧
  g'.MaxDepth = g.MaxDepth ∧
  ((g.Nodes.map Prod.fst).Nodup → (g'.Nodes.map Prod.fst).Nodup) ∧
  (∀ k, k ∈ v → NoSlash k → lookupNode g'.Nodes k = lookupNode g.Nodes k) ∧
  (∀ k n, lookupNode g'.Nodes k = some n →
    lookupNode g.Nodes k = some n ∨ (sid = some k ∧ n.Depth = d) ∨ d + 1 ≤ n.Depth)

theorem stepInv_refl (d : Nat) (sid : Option String) (g : Graph) (v : List String) :
    stepInv d sid g v g v :=
  ⟨fun _ h => h, rfl, fun h => h, fun _ _ _ => rfl, fun _ _ h => Or.inl h⟩

theorem stepInv_comp {d : Nat} {sid : Option String} {g g₁ g' : Graph}
    {v v₁ v' : List String} (h₁ : stepInv d sid g v g₁ v₁)
    (h₂ : stepInv d sid g₁ v₁ g' v') : stepInv d sid g v g' v' := by
  obtain ⟨s₁, m₁, n₁, p₁, b₁⟩ := h₁
  obtain ⟨s₂, m₂, n₂, p₂, b₂⟩ := h₂
  refine ⟨fun x hx => s₂ x (s₁ x hx), m₂.trans m₁, fun h => n₂ (n₁ h), ?_, ?_⟩
  · intro k hk hns
    rw [p₂ k (s₁ k hk) hns, p₁ k hk hns]
  · intro k n hl
    rcases b₂ k n hl with h | h | h
    · exact b₁ k n h
    · exact Or.inr (Or.inl h)
    · exact Or.inr (Or.inr h)

theorem stepInv_mono_none {d : Nat} {g g' : Graph} {v v' : List String}
    (sid : Option String) (h : stepInv d none g v g' v') : stepInv d sid g v g' v' := by
  obtain ⟨s, m, n, p, b⟩ := h
  refine ⟨s, m, n, p, ?_⟩
  intro k nn hl
  rcases b k nn hl with h' | h' | h'
  · exact Or.inl h'
  · exact absurd h'.1 (by simp)
  · exact Or.inr (Or.inr h')

theorem stepInv_of_deeper {d : Nat} {sid : Option String} {g g' : Graph}
    {v v' : List String} (h : stepInv (d + 1) sid g v g' v') :
    stepInv d none g v g' v' := by
  obtain ⟨s, m, n, p, b⟩ := h
  refine ⟨s, m, n, p, ?_⟩
  intro k nn hl
  rcases b k nn hl with h' | h' | h'
  · exact Or.inl h'
  · exact Or.inr (Or.inr (by omega))
  · exact Or.inr (Or.inr (by omega))

theorem stepInv_cons_visited {d : Nat} {sid : Option String} {g g' : Graph}
    {v v' : List String} {x : String} (h : stepInv d sid g (x :: v) g' v') :
    stepInv d sid g v g' v' := by
  obtain ⟨s, m, n, p, b⟩ := h
  exact ⟨fun y hy => s y (List.mem_cons_of_mem _ hy), m, n,
    fun k hk => p k (List.mem_cons_of_mem _ hk), b⟩

theorem stepInv_insert_own {d : Nat} {g : Graph} {v : List String} {nodeID : String}
    {n : Node} (hd : n.Depth = d) (hv : nodeID ∉ v) :
    stepInv d (some nodeID) g v { g with Nodes := insertNode g.Nodes nodeID n } v := by
  refine ⟨fun _ h => h, rfl, fun h => keys_insertNode_nodup _ _ _ h, ?_, ?_⟩
  · intro k hk _
    exact lookupNode_insertNode_ne _ _ _ _ (fun he => hv (he ▸ hk))
  · intro k m hl
    by_cases hk : k = nodeID
    · subst hk
      rw [lookupNode_insertNode_self] at hl
      cases hl
      exact Or.inr (Or.inl ⟨rfl, hd⟩)
    · rw [lookupNode_insertNode_ne _ _ _ _ hk] at hl
      exact Or.inl hl

theorem stepInv_insert_slash {d : Nat} {g : Graph} {v : List String} {key : String}
    {n : Node} (sid : Option String) (hns : ¬ NoSlash key) (hd : n.Depth = d + 1) :
    stepInv d sid g v { g with Nodes := insertNode g.Nodes key n } v := by
  refine ⟨fun _ h => h, rfl, fun h => keys_insertNode_nodup _ _ _ h, ?_, ?_⟩
  · intro k _ hk
    exact lookupNode_insertNode_ne _ _ _ _ (fun he => hns (he ▸ hk))
  · intro k m hl
    by_cases hk : k = key
    · subst hk
      rw [lookupNode_insertNode_self] at hl
      cases hl
      exact Or.inr (Or.inr (by omega))
    · rw [lookupNode_insertNode_ne _ _ _ _ hk] at hl
      exact Or.inl hl

/-- The invariant of a `traverseNode` call itself.  Like `stepInv` with
`sid = some id`, except that the untouched-bindings clause exempts the
call's own identifier: `traverseNode` may rebind `id` even though it just
marked it visited. -/
def stepInvNode (d : Nat) (id : String) (g : Graph) (v : List String)
    (g' : Graph) (v' : List String) : Prop :=
  (∀ x, x ∈ v → x ∈ v') ∧
  g'.MaxDepth = g.MaxDepth ∧
  ((g.Nodes.map Prod.fst).Nodup → (g'.Nodes.map Prod.fst).Nodup) ∧
  (∀ k, k ∈ v → NoSlash k → k ≠ id → lookupNode g'.Nodes k = lookupNode g.Nodes k) ∧
  (∀ k n, lookupNode g'.Nodes k = some n →
    lookupNode g.Nodes k = some n ∨ (k = id ∧ n.Depth = d) ∨ d + 1 ≤ n.Depth)

theorem stepInvNode_refl (d : Nat) (id : String) (g : Graph) (v : List String) :
    stepInvNode d id g v g v :=
  ⟨fun _ h => h, rfl, fun h => h, fun _ _ _ _ => rfl, fun _ _ h => Or.inl h⟩

theorem stepInvNode_comp {d : Nat} {id : String} {g g₁ g' : Graph}
    {v v₁ v' : List String} (h₁ : stepInvNode d id g v g₁ v₁)
    (h₂ : stepInvNode d id g₁ v₁ g' v') : stepInvNode d id g v g' v' := by
  obtain ⟨s₁, m₁, n₁, p₁, b₁⟩ := h₁
  obtain ⟨s₂, m₂, n₂, p₂, b₂⟩ := h₂
  refine ⟨fun x hx => s₂ x (s₁ x hx), m₂.trans m₁, fun h => n₂ (n₁ h), ?_, ?_⟩
  · intro k hk hns hki
    rw [p₂ k (s₁ k hk) hns hki, p₁ k hk hns hki]
  · intro k n hl
    rcases b₂ k n hl with h | h | h
    · exact b₁ k n h
    · exact Or.inr (Or.inl h)
    · exact Or.inr (Or.inr h)

theorem stepInvNode_mark (d : Nat) (id x : String) (g : Graph) (v : List String) :
    stepInvNode d id g v g (x :: v) :=
  ⟨fun _ h => List.mem_cons_of_mem _ h, rfl, fun h => h, fun _ _ _ _ => rfl,
    fun _ _ h => Or.inl h⟩

theorem stepInvNode_insert_own (d : Nat) (id : String) (g : Graph) (v : List String)
    (n : Node) :
    stepInvNode d id g v { g with Nodes := insertNode g.Nodes id { n with Depth := d } } v := by
  refine ⟨fun _ h => h, rfl, fun h => keys_insertNode_nodup _ _ _ h, ?_, ?_⟩
  · intro k _ _ hki
    exact lookupNode_insertNode_ne _ _ _ _ hki
  · intro k m hl
    by_cases hk : k = id
    · subst hk
      rw [lookupNode_insertNode_self] at hl
      cases hl
      exact Or.inr (Or.inl ⟨rfl, rfl⟩)
    · rw [lookupNode_insertNode_ne _ _ _ _ hk] at hl
      exact Or.inl hl

theorem stepInvNode_of_stepInv {d : Nat} {id : String} {g g' : Graph}
    {v v' : List String} (h : stepInv d none g v g' v') :
    stepInvNode d id g v g' v' := by
  obtain ⟨s, m, n, p, b⟩ := h
  refine ⟨s, m, n, fun k hk hns _ => p k hk hns, ?_⟩
  intro k nn hl
  rcases b k nn hl with h' | h' | h'
  · exact Or.inl h'
  · exact absurd h'.1 (by simp)
  · exact Or.inr (Or.inr h')

theorem stepInv_of_stepInvNode {d : Nat} {id : String} {g g' : Graph}
    {v v' : List String} (hid : id ∉ v) (h : stepInvNode d id g v g' v') :
    stepInv d (some id) g v g' v' := by
  obtain ⟨s, m, n, p, b⟩ := h
  refine ⟨s, m, n, ?_, ?_⟩
  · intro k hk hns
    exact p k hk hns (fun he => hid (he ▸ hk))
  · intro k nn hl
    rcases b k nn hl with h' | h' | h'
    · exact Or.inl h'
    · exact Or.inr (Or.inl ⟨by rw [h'.1], h'.2⟩)
    · exact Or.inr (Or.inr h')

/-- The invariant, packaged as a property of a traversal entry point as
handed to the loop helpers: a call on an already-visited identifier is a
complete no-op, and every call satisfies `stepInvNode`. -/
def TNInv (tn : TravRec) : Prop :=
  ∀ g b id d v r, tn g b id d v = some r →
    (id ∈ v → r = (g, v)) ∧ stepInvNode d id g v r.1 r.2

theorem pmrRefList_inv {tn : TravRec} (htn : TNInv tn) :
    ∀ (refs : List Reference) (g : Graph) (mid : String) (d : Nat)
      (v : List String) (mb : String) (r : TravState),
      pmrRefList tn g refs mid d v mb = some r → stepInv d none g v r.1 r.2 := by
  intro refs
  induction refs with
  | nil =>
    intro g mid d v mb r hr
    rw [pmrRefList] at hr
    cases hr
    exact stepInv_refl ..
  | cons ref refs ih =>
    intro g mid d v mb r hr
    rw [pmrRefList] at hr
    by_cases h1 : (!(strStartsWith ref.ID "var.") && !(strStartsWith ref.ID "local.")) = true
    · simp only [h1, if_true] at hr
      by_cases h2 : v.contains (mid ++ "/" ++ ref.ID) = true
      · simp only [h2, Bool.not_true, Bool.false_eq_true, if_false] at hr
        exact ih g mid d v mb r hr
      · rw [Bool.not_eq_true] at h2
        simp only [h2, Bool.not_false, if_true] at hr
        cases hstep : tn g mb (mid ++ "/" ++ ref.ID) (d + 1) v with
        | none => rw [hstep] at hr; cases hr
        | some st =>
          rw [hstep] at hr
          have hmv : (mid ++ "/" ++ ref.ID) ∉ v := fun hm => by
            rw [(contains_iff_mem v (mid ++ "/" ++ ref.ID)).mpr hm] at h2
            cases h2
          have hs₁ : stepInv d none g v st.1 st.2 :=
            stepInv_of_deeper
              (stepInv_of_stepInvNode hmv
                ((htn g mb (mid ++ "/" ++ ref.ID) (d + 1) v st hstep).2))
          exact stepInv_comp hs₁ (ih st.1 mid d st.2 mb r hr)
    · rw [Bool.not_eq_true] at h1
      simp only [h1, Bool.false_eq_true, if_false] at hr
      exact ih g mid d v mb r hr

theorem processModuleReferences_inv {tn : TravRec} (htn : TNInv tn) :
    ∀ (cats : List (String × List Reference)) (g : Graph) (mid : String) (d : Nat)
      (v : List String) (mb : String) (r : TravState),
      processModuleReferences tn g cats mid d v mb = some r → stepInv d none g v r.1 r.2 := by
  intro cats
  induction cats with
  | nil =>
    intro g mid d v mb r hr
    rw [processModuleReferences] at hr
    cases hr
    exact stepInv_refl ..
  | cons cat cats ih =>
    intro g mid d v mb r hr
    rw [processModuleReferences] at hr
    cases hstep : pmrRefList tn g cat.2 mid d v mb with
    | none => rw [hstep] at hr; cases hr
    | some st =>
      rw [hstep] at hr
      exact stepInv_comp (pmrRefList_inv htn cat.2 g mid d v mb st hstep)
        (ih st.1 mid d st.2 mb r hr)

theorem processModuleBlocks_inv {tn : TravRec} (htn : TNInv tn) :
    ∀ (blocks : List Block) (g : Graph) (file mid : String) (d : Nat)
      (v : List String) (mb : String) (r : TravState),
      processModuleBlocks tn g blocks file mid d v mb = some r → stepInv d none g v r.1 r.2 := by
  intro blocks
  induction blocks with
  | nil =>
    intro g file mid d v mb r hr
    rw [processModuleBlocks] at hr
    cases hr
    exact stepInv_refl ..
  | cons block blocks ih =>
    intro g file mid d v mb r hr
    rw [processModuleBlocks] at hr
    by_cases hid : getBlockID block = ""
    · rw [if_pos hid] at hr
      exact ih g file mid d v mb r hr
    · rw [if_neg hid] at hr
      simp only [] at hr
      split at hr
      · cases hr
      · rename_i g₁ v₁ heq
        have h2 := processModuleReferences_inv htn (extractReferences block file) _ mid d v mb
          (g₁, v₁) heq
        exact stepInv_comp
          (stepInv_insert_slash none (not_noSlash_concat mid (getBlockID block)) rfl)
          (stepInv_comp h2 (ih g₁ file mid d v₁ mb r hr))

theorem tmdFiles_inv {tn : TravRec} (htn : TNInv tn) :
    ∀ (files : List TFFile) (g : Graph) (mb mid : String) (d : Nat)
      (v : List String) (r : TravState),
      tmdFiles tn g mb mid d v files = some r → stepInv d none g v r.1 r.2 := by
  intro files
  induction files with
  | nil =>
    intro g mb mid d v r hr
    rw [tmdFiles] at hr
    cases hr
    exact stepInv_refl ..
  | cons f rest ih =>
    intro g mb mid d v r hr
    rw [tmdFiles] at hr
    split at hr
    · exact ih g mb mid d v r hr
    · rename_i blocks heq
      split at hr
      · cases hr
      · rename_i g₁ v₁ heq₂
        exact stepInv_comp (processModuleBlocks_inv htn blocks g f.path mid d v mb (g₁, v₁) heq₂)
          (ih g₁ mb mid d v₁ r hr)

theorem traverseModuleDirectory_inv {env : Env} {tn : TravRec} (htn : TNInv tn) :
    ∀ (g : Graph) (mb mid : String) (d : Nat) (v : List String) (r : TravState),
      traverseModuleDirectory env tn g mb mid d v = some r → stepInv d none g v r.1 r.2 := by
  intro g mb mid d v r hr
  rw [traverseModuleDirectory] at hr
  by_cases he : (env.files mb).isEmpty = true
  · rw [if_pos he] at hr
    cases hr
    exact stepInv_refl ..
  · rw [if_neg he] at hr
    exact tmdFiles_inv htn (env.files mb) g mb mid d v r hr

theorem traverseRefList_inv {tn : TravRec} (htn : TNInv tn) :
    ∀ (refs : List Reference) (g : Graph) (b : String) (d : Nat)
      (v : List String) (r : TravState),
      traverseRefList tn g b d v refs = some r → stepInv d none g v r.1 r.2 := by
  intro refs
  induction refs with
  | nil =>
    intro g b d v r hr
    rw [traverseRefList] at hr
    cases hr
    exact stepInv_refl ..
  | cons ref refs ih =>
    intro g b d v r hr
    rw [traverseRefList] at hr
    by_cases h1 : (!(strStartsWith ref.ID "var.") && !(strStartsWith ref.ID "local.")) = true
    · simp only [h1, if_true] at hr
      cases hstep : tn g b ref.ID (d + 1) v with
      | none => rw [hstep] at hr; cases hr
      | some st =>
        rw [hstep] at hr
        by_cases hrv : ref.ID ∈ v
        · have hnoop := (htn g b ref.ID (d + 1) v st hstep).1 hrv
          subst hnoop
          exact ih g b d v r hr
        · have hs₁ : stepInv d none g v st.1 st.2 :=
            stepInv_of_deeper
              (stepInv_of_stepInvNode hrv ((htn g b ref.ID (d + 1) v st hstep).2))
          exact stepInv_comp hs₁ (ih st.1 b d st.2 r hr)
    · rw [Bool.not_eq_true] at h1
      simp only [h1, Bool.false_eq_true, if_false] at hr
      exact ih g b d v r hr

theorem traverseRefCats_inv {tn : TravRec} (htn : TNInv tn) :
    ∀ (cats : List (String × List Reference)) (g : Graph) (b : String) (d : Nat)
      (v : List String) (r : TravState),
      traverseRefCats tn g b d v cats = some r → stepInv d none g v r.1 r.2 := by
  intro cats
  induction cats with
  | nil =>
    intro g b d v r hr
    rw [traverseRefCats] at hr
    cases hr
    exact stepInv_refl ..
  | cons cat cats ih =>
    intro g b d v r hr
    rw [traverseRefCats] at hr
    cases hstep : traverseRefList tn g b d v cat.2 with
    | none => rw [hstep] at hr; cases hr
    | some st =>
      rw [hstep] at hr
      exact stepInv_comp (traverseRefList_inv htn cat.2 g b d v st hstep)
        (ih st.1 b d st.2 r hr)

theorem tnTail_inv {env : Env} {tn : TravRec} (htn : TNInv tn)
    (b id : String) (d : Nat) :
    ∀ (g₁ : Graph) (v₁ : List String) (r : TravState),
      (match findResourceNode env b id with
        | none => some (g₁, v₁)
        | some node =>
          traverseRefCats tn
            { Nodes := insertNode g₁.Nodes id
                { ID := node.ID, type := node.type, Name := node.Name, Path := node.Path,
                  References := node.References, Depth := d },
              MaxDepth := g₁.MaxDepth }
            b d v₁ node.References) = some r →
      stepInvNode d id g₁ v₁ r.1 r.2 := by
  intro g₁ v₁ r hr
  cases hloc : findResourceNode env b id with
  | none =>
    rw [hloc] at hr
    cases hr
    exact stepInvNode_refl ..
  | some node =>
    rw [hloc] at hr
    have hr' : traverseRefCats tn
        { Nodes := insertNode g₁.Nodes id
            { ID := node.ID, type := node.type, Name := node.Name, Path := node.Path,
              References := node.References, Depth := d },
          MaxDepth := g₁.MaxDepth }
        b d v₁ node.References = some r := hr
    refine stepInvNode_comp (stepInvNode_insert_own d id g₁ v₁ node)
      (stepInvNode_of_stepInv ?_)
    exact traverseRefCats_inv htn node.References _ b d v₁ r hr'

/-- The traversal invariant holds for `traverseNode` at every fuel. -/
theorem traverseNode_inv (env : Env) : ∀ fuel, TNInv (traverseNode env fuel) := by
  intro fuel
  induction fuel with
  | zero =>
    intro g b id d v r hr
    rw [traverseNode] at hr
    cases hr
  | succ fuel ih =>
    intro g b id d v r hr
    simp only [traverseNode] at hr
    by_cases hg : d > g.MaxDepth ∨ v.contains id = true
    · rw [if_pos hg] at hr
      cases hr
      exact ⟨fun _ => rfl, stepInvNode_refl ..⟩
    · rw [if_neg hg] at hr
      have hgc : v.contains id = false := by
        cases hcv : v.contains id with
        | false => rfl
        | true => exact absurd (Or.inr hcv) hg
      have hidv : id ∉ v := fun hmem => by
        rw [(contains_iff_mem v id).mpr hmem] at hgc
        cases hgc
      refine ⟨fun hmem => absurd hmem hidv, ?_⟩
      by_cases hm : strStartsWith id "module." = true
      · rw [if_pos hm] at hr
        set mn := (if (splitN2 ((strSplitDot id).getD 1 "")).length > 1 then
            (splitN2 ((strSplitDot id).getD 1 "")).headD ""
          else (strSplitDot id).getD 1 "") with hmn
        by_cases hpm : (findModuleNode env b ("module." ++ mn)).1 ≠ ""
        · rw [if_pos hpm] at hr
          split at hr
          · cases hr
          · rename_i g₁ v₁ heqA
            refine stepInvNode_comp (stepInvNode_comp (stepInvNode_mark d id id g v)
              (stepInvNode_comp
                (stepInvNode_insert_own d id g (id :: v)
                  (findModuleNode env b ("module." ++ mn)).2)
                (stepInvNode_of_stepInv
                  (traverseModuleDirectory_inv ih _ _ _ d _ (g₁, v₁) heqA))))
              (tnTail_inv ih b id d g₁ v₁ r hr)
        · rw [if_neg hpm] at hr
          exact stepInvNode_comp (stepInvNode_mark d id id g v)
            (tnTail_inv ih b id d g (id :: v) r hr)
      · rw [if_neg hm] at hr
        exact stepInvNode_comp (stepInvNode_mark d id id g v)
          (tnTail_inv ih b id d g (id :: v) r hr)

/-! ### Fuel sufficiency: the embedded form of termination -/

/-- `tn` never runs out of fuel when called at depth `d1` on a graph with
`MaxDepth = M`. -/
def TNSuffAt (M d1 : Nat) (tn : TravRec) : Prop :=
  ∀ g b id v, g.MaxDepth = M → (tn g b id d1 v).isSome = true

/-- `tn` preserves `MaxDepth`. -/
def TNPres (tn : TravRec) : Prop :=
  ∀ g b id d v r, tn g b id d v = some r → r.1.MaxDepth = g.MaxDepth

theorem traverseNode_pres (env : Env) (fuel : Nat) : TNPres (traverseNode env fuel) :=
  fun g b id d v r hr => ((traverseNode_inv env fuel g b id d v r hr).2).2.1

theorem pmrRefList_suff {tn : TravRec} {M d : Nat}
    (hsuff : TNSuffAt M (d + 1) tn) (hpres : TNPres tn) :
    ∀ (refs : List Reference) (g : Graph) (mid : String) (v : List String) (mb : String),
      g.MaxDepth = M → (pmrRefList tn g refs mid d v mb).isSome = true := by
  intro refs
  induction refs with
  | nil =>
    intro g mid v mb hM
    rw [pmrRefList]
    rfl
  | cons ref refs ih =>
    intro g mid v mb hM
    rw [pmrRefList]
    by_cases h1 : (!(strStartsWith ref.ID "var.") && !(strStartsWith ref.ID "local.")) = true
    · rw [if_pos h1]
      by_cases h2 : (!(v.contains (mid ++ "/" ++ ref.ID))) = true
      · rw [if_pos h2]
        obtain ⟨st, hst⟩ := Option.isSome_iff_exists.mp
          (hsuff g mb (mid ++ "/" ++ ref.ID) v hM)
        obtain ⟨g₁, v₁⟩ := st
        rw [hst]
        exact ih g₁ mid v₁ mb ((hpres _ _ _ _ _ _ hst).trans hM)
      · rw [if_neg h2]
        exact ih g mid v mb hM
    · rw [if_neg h1]
      exact ih g mid v mb hM

theorem pmrRefList_pres {tn : TravRec} (hpres : TNPres tn) :
    ∀ (refs : List Reference) (g : Graph) (mid : String) (d : Nat)
      (v : List String) (mb : String) (r : TravState),
      pmrRefList tn g refs mid d v mb = some r → r.1.MaxDepth = g.MaxDepth := by
  intro refs
  induction refs with
  | nil =>
    intro g mid d v mb r hr
    rw [pmrRefList] at hr
    cases hr
    rfl
  | cons ref refs ih =>
    intro g mid d v mb r hr
    rw [pmrRefList] at hr
    by_cases h1 : (!(strStartsWith ref.ID "var.") && !(strStartsWith ref.ID "local.")) = true
    · rw [if_pos h1] at hr
      by_cases h2 : (!(v.contains (mid ++ "/" ++ ref.ID))) = true
      · rw [if_pos h2] at hr
        cases hst : tn g mb (mid ++ "/" ++ ref.ID) (d + 1) v with
        | none => rw [hst] at hr; cases hr
        | some st =>
          rw [hst] at hr
          exact (ih st.1 mid d st.2 mb r hr).trans (hpres _ _ _ _ _ _ hst)
      · rw [if_neg h2] at hr
        exact ih g mid d v mb r hr
    · rw [if_neg h1] at hr
      exact ih g mid d v mb r hr

theorem processModuleReferences_pres {tn : TravRec} (hpres : TNPres tn) :
    ∀ (cats : List (String × List Reference)) (g : Graph) (mid : String) (d : Nat)
      (v : List String) (mb : String) (r : TravState),
      processModuleReferences tn g cats mid d v mb = some r → r.1.MaxDepth = g.MaxDepth := by
  intro cats
  induction cats with
  | nil =>
    intro g mid d v mb r hr
    rw [processModuleReferences] at hr
    cases hr
    rfl
  | cons cat cats ih =>
    intro g mid d v mb r hr
    rw [processModuleReferences] at hr
    cases hst : pmrRefList tn g cat.2 mid d v mb with
    | none => rw [hst] at hr; cases hr
    | some st =>
      rw [hst] at hr
      exact (ih st.1 mid d st.2 mb r hr).trans (pmrRefList_pres hpres cat.2 g mid d v mb st hst)

theorem processModuleBlocks_pres {tn : TravRec} (hpres : TNPres tn) :
    ∀ (blocks : List Block) (g : Graph) (file mid : String) (d : Nat)
      (v : List String) (mb : String) (r : TravState),
      processModuleBlocks tn g blocks file mid d v mb = some r → r.1.MaxDepth = g.MaxDepth := by
  intro blocks
  induction blocks with
  | nil =>
    intro g file mid d v mb r hr
    rw [processModuleBlocks] at hr
    cases hr
    rfl
  | cons block blocks ih =>
    intro g file mid d v mb r hr
    rw [processModuleBlocks] at hr
    by_cases hid : getBlockID block = ""
    · rw [if_pos hid] at hr
      exact ih g file mid d v mb r hr
    · rw [if_neg hid] at hr
      simp only [] at hr
      split at hr
      · cases hr
      · rename_i g₁ v₁ heq
        have h1 := processModuleReferences_pres hpres (extractReferences block file) _ mid d v mb
          (g₁, v₁) heq
        exact (ih g₁ file mid d v₁ mb r hr).trans h1

theorem tmdFiles_pres {tn : TravRec} (hpres : TNPres tn) :
    ∀ (files : List TFFile) (g : Graph) (mb mid : String) (d : Nat)
      (v : List String) (r : TravState),
      tmdFiles tn g mb mid d v files = some r → r.1.MaxDepth = g.MaxDepth := by
  intro files
  induction files with
  | nil =>
    intro g mb mid d v r hr
    rw [tmdFiles] at hr
    cases hr
    rfl
  | cons f rest ih =>
    intro g mb mid d v r hr
    rw [tmdFiles] at hr
    split at hr
    · exact ih g mb mid d v r hr
    · rename_i blocks heq
      split at hr
      · cases hr
      · rename_i g₁ v₁ heq₂
        exact (ih g₁ mb mid d v₁ r hr).trans
          (processModuleBlocks_pres hpres blocks g f.path mid d v mb (g₁, v₁) heq₂)

theorem traverseModuleDirectory_pres {env : Env} {tn : TravRec} (hpres : TNPres tn) :
    ∀ (g : Graph) (mb mid : String) (d : Nat) (v : List String) (r : TravState),
      traverseModuleDirectory env tn g mb mid d v = some r → r.1.MaxDepth = g.MaxDepth := by
  intro g mb mid d v r hr
  rw [traverseModuleDirectory] at hr
  by_cases he : (env.files mb).isEmpty = true
  · rw [if_pos he] at hr
    cases hr
    rfl
  · rw [if_neg he] at hr
    exact tmdFiles_pres hpres (env.files mb) g mb mid d v r hr

theorem traverseRefList_pres {tn : TravRec} (hpres : TNPres tn) :
    ∀ (refs : List Reference) (g : Graph) (b : String) (d : Nat)
      (v : List String) (r : TravState),
      traverseRefList tn g b d v refs = some r → r.1.MaxDepth = g.MaxDepth := by
  intro refs
  induction refs with
  | nil =>
    intro g b d v r hr
    rw [traverseRefList] at hr
    cases hr
    rfl
  | cons ref refs ih =>
    intro g b d v r hr
    rw [traverseRefList] at hr
    by_cases h1 : (!(strStartsWith ref.ID "var.") && !(strStartsWith ref.ID "local.")) = true
    · rw [if_pos h1] at hr
      cases hst : tn g b ref.ID (d + 1) v with
      | none => rw [hst] at hr; cases hr
      | some st =>
        rw [hst] at hr
        exact (ih st.1 b d st.2 r hr).trans (hpres _ _ _ _ _ _ hst)
    · rw [if_neg h1] at hr
      exact ih g b d v r hr

theorem traverseRefCats_pres {tn : TravRec} (hpres : TNPres tn) :
    ∀ (cats : List (String × List Reference)) (g : Graph) (b : String) (d : Nat)
      (v : List String) (r : TravState),
      traverseRefCats tn g b d v cats = some r → r.1.MaxDepth = g.MaxDepth := by
  intro cats
  induction cats with
  | nil =>
    intro g b d v r hr
    rw [traverseRefCats] at hr
    cases hr
    rfl
  | cons cat cats ih =>
    intro g b d v r hr
    rw [traverseRefCats] at hr
    cases hst : traverseRefList tn g b d v cat.2 with
    | none => rw [hst] at hr; cases hr
    | some st =>
      rw [hst] at hr
      exact (ih st.1 b d st.2 r hr).trans (traverseRefList_pres hpres cat.2 g b d v st hst)

theorem processModuleReferences_suff {tn : TravRec} {M d : Nat}
    (hsuff : TNSuffAt M (d + 1) tn) (hpres : TNPres tn) :
    ∀ (cats : List (String × List Reference)) (g : Graph) (mid : String)
      (v : List String) (mb : String),
      g.MaxDepth = M → (processModuleReferences tn g cats mid d v mb).isSome = true := by
  intro cats
  induction cats with
  | nil =>
    intro g mid v mb hM
    rw [processModuleReferences]
    rfl
  | cons cat cats ih =>
    intro g mid v mb hM
    rw [processModuleReferences]
    obtain ⟨st, hst⟩ := Option.isSome_iff_exists.mp
      (pmrRefList_suff hsuff hpres cat.2 g mid v mb hM)
    obtain ⟨g₁, v₁⟩ := st
    rw [hst]
    exact ih g₁ mid v₁ mb ((pmrRefList_pres hpres cat.2 g mid d v mb (g₁, v₁) hst).trans hM)

theorem processModuleBlocks_suff {tn : TravRec} {M d : Nat}
    (hsuff : TNSuffAt M (d + 1) tn) (hpres : TNPres tn) :
    ∀ (blocks : List Block) (g : Graph) (file mid : String) (v : List String) (mb : String),
      g.MaxDepth = M → (processModuleBlocks tn g blocks file mid d v mb).isSome = true := by
  intro blocks
  induction blocks with
  | nil =>
    intro g file mid v mb hM
    rw [processModuleBlocks]
    rfl
  | cons block blocks ih =>
    intro g file mid v mb hM
    rw [processModuleBlocks]
    by_cases hid : getBlockID block = ""
    · rw [if_pos hid]
      exact ih g file mid v mb hM
    · rw [if_neg hid]
      simp only []
      generalize (⟨mid ++ "/" ++ getBlockID block, block.type, block.labels.getLastD "",
        file, extractReferences block file, d + 1⟩ : Node) = nd
      have hMM : ({ g with Nodes := insertNode g.Nodes (mid ++ "/" ++ getBlockID block) nd } :
          Graph).MaxDepth = M := hM
      split
      · rename_i heq
        have hs := processModuleReferences_suff hsuff hpres (extractReferences block file)
          _ mid v mb hMM
        rw [heq] at hs
        cases hs
      · rename_i g₁ v₁ heq
        exact ih g₁ file mid v₁ mb
          ((processModuleReferences_pres hpres (extractReferences block file) _ mid d v mb
            (g₁, v₁) heq).trans hM)

theorem tmdFiles_suff {tn : TravRec} {M d : Nat}
    (hsuff : TNSuffAt M (d + 1) tn) (hpres : TNPres tn) :
    ∀ (files : List TFFile) (g : Graph) (mb mid : String) (v : List String),
      g.MaxDepth = M → (tmdFiles tn g mb mid d v files).isSome = true := by
  intro files
  induction files with
  | nil =>
    intro g mb mid v hM
    rw [tmdFiles]
    rfl
  | cons f rest ih =>
    intro g mb mid v hM
    rw [tmdFiles]
    split
    · exact ih g mb mid v hM
    · rename_i blocks heq
      split
      · rename_i heq₂
        have hs := processModuleBlocks_suff hsuff hpres blocks g f.path mid v mb hM
        rw [heq₂] at hs
        cases hs
      · rename_i g₁ v₁ heq₂
        exact ih g₁ mb mid v₁
          ((processModuleBlocks_pres hpres blocks g f.path mid d v mb (g₁, v₁) heq₂).trans hM)

theorem traverseModuleDirectory_suff (env : Env) {tn : TravRec} {M d : Nat}
    (hsuff : TNSuffAt M (d + 1) tn) (hpres : TNPres tn) :
    ∀ (g : Graph) (mb mid : String) (v : List String),
      g.MaxDepth = M → (traverseModuleDirectory env tn g mb mid d v).isSome = true := by
  intro g mb mid v hM
  rw [traverseModuleDirectory]
  by_cases he : (env.files mb).isEmpty = true
  · rw [if_pos he]
    rfl
  · rw [if_neg he]
    exact tmdFiles_suff hsuff hpres (env.files mb) g mb mid v hM

theorem traverseRefList_suff {tn : TravRec} {M d : Nat}
    (hsuff : TNSuffAt M (d + 1) tn) (hpres : TNPres tn) :
    ∀ (refs : List Reference) (g : Graph) (b : String) (v : List String),
      g.MaxDepth = M → (traverseRefList tn g b d v refs).isSome = true := by
  intro refs
  induction refs with
  | nil =>
    intro g b v hM
    rw [traverseRefList]
    rfl
  | cons ref refs ih =>
    intro g b v hM
    rw [traverseRefList]
    by_cases h1 : (!(strStartsWith ref.ID "var.") && !(strStartsWith ref.ID "local.")) = true
    · rw [if_pos h1]
      obtain ⟨st, hst⟩ := Option.isSome_iff_exists.mp (hsuff g b ref.ID v hM)
      obtain ⟨g₁, v₁⟩ := st
      rw [hst]
      exact ih g₁ b v₁ ((hpres _ _ _ _ _ _ hst).trans hM)
    · rw [if_neg h1]
      exact ih g b v hM

theorem traverseRefCats_suff {tn : TravRec} {M d : Nat}
    (hsuff : TNSuffAt M (d + 1) tn) (hpres : TNPres tn) :
    ∀ (cats : List (String × List Reference)) (g : Graph) (b : String) (v : List String),
      g.MaxDepth = M → (traverseRefCats tn g b d v cats).isSome = true := by
  intro cats
  induction cats with
  | nil =>
    intro g b v hM
    rw [traverseRefCats]
    rfl
  | cons cat cats ih =>
    intro g b v hM
    rw [traverseRefCats]
    obtain ⟨st, hst⟩ := Option.isSome_iff_exists.mp
      (traverseRefList_suff hsuff hpres cat.2 g b v hM)
    obtain ⟨g₁, v₁⟩ := st
    rw [hst]
    exact ih g₁ b v₁ ((traverseRefList_pres hpres cat.2 g b d v (g₁, v₁) hst).trans hM)

theorem tnTail_suff {env : Env} {tn : TravRec} {M d : Nat}
    (hsuff : TNSuffAt M (d + 1) tn) (hpres : TNPres tn) (b id : String) :
    ∀ (g₁ : Graph) (v₁ : List String), g₁.MaxDepth = M →
      (match findResourceNode env b id with
        | none => some (g₁, v₁)
        | some node =>
          traverseRefCats tn
            { Nodes := insertNode g₁.Nodes id
                { ID := node.ID, type := node.type, Name := node.Name, Path := node.Path,
                  References := node.References, Depth := d },
              MaxDepth := g₁.MaxDepth }
            b d v₁ node.References).isSome = true := by
  intro g₁ v₁ hM₁
  cases hloc : findResourceNode env b id with
  | none => rfl
  | some node =>
    show (traverseRefCats tn
        { Nodes := insertNode g₁.Nodes id
            { ID := node.ID, type := node.type, Name := node.Name, Path := node.Path,
              References := node.References, Depth := d },
          MaxDepth := g₁.MaxDepth }
        b d v₁ node.References).isSome = true
    generalize (⟨node.ID, node.type, node.Name, node.Path, node.References, d⟩ : Node) = nd
    have hMM : ({ g₁ with Nodes := insertNode g₁.Nodes id nd } : Graph).MaxDepth = M := hM₁
    exact traverseRefCats_suff hsuff hpres node.References _ b v₁ hMM

/-- Fuel sufficiency for `traverseNode`: with fuel at least
`MaxDepth + 2 - depth` (and at least 1) the embedded traversal never
returns `none`.  This is the embedded form of the Go program's
termination: every recursive call increments `depth` and the guard stops
at `depth > MaxDepth`. -/
theorem traverseNode_suff (env : Env) (M : Nat) :
    ∀ (fuel d : Nat), M + 2 ≤ fuel + d → 1 ≤ fuel →
      ∀ (g : Graph) (b id : String) (v : List String),
        g.MaxDepth = M → (traverseNode env fuel g b id d v).isSome = true := by
  intro fuel
  induction fuel with
  | zero =>
    intro d hfd h1
    exact absurd h1 (by omega)
  | succ fuel ih =>
    intro d hfd _ g b id v hM
    simp only [traverseNode]
    by_cases hg : d > g.MaxDepth ∨ v.contains id = true
    · rw [if_pos hg]
      rfl
    · rw [if_neg hg]
      have hdM : d ≤ M := by
        by_contra hlt
        push_neg at hlt
        exact hg (Or.inl (by rw [hM]; omega))
      have hsuff : TNSuffAt M (d + 1) (traverseNode env fuel) := by
        intro g' b' id' v' hMg
        exact ih (d + 1) (by omega) (by omega) g' b' id' v' hMg
      have hpres := traverseNode_pres env fuel
      by_cases hm : strStartsWith id "module." = true
      · rw [if_pos hm]
        set mn := (if (splitN2 ((strSplitDot id).getD 1 "")).length > 1 then
            (splitN2 ((strSplitDot id).getD 1 "")).headD ""
          else (strSplitDot id).getD 1 "") with hmn
        by_cases hpm : (findModuleNode env b ("module." ++ mn)).1 ≠ ""
        · rw [if_pos hpm]
          generalize hnd : (⟨(findModuleNode env b ("module." ++ mn)).2.ID,
            (findModuleNode env b ("module." ++ mn)).2.type,
            (findModuleNode env b ("module." ++ mn)).2.Name,
            (findModuleNode env b ("module." ++ mn)).2.Path,
            (findModuleNode env b ("module." ++ mn)).2.References, d⟩ : Node) = nd
          have hMM : ({ g with Nodes := insertNode g.Nodes id nd } : Graph).MaxDepth = M := hM
          split
          · rename_i heqA
            have hs := traverseModuleDirectory_suff env hsuff hpres
              { g with Nodes := insertNode g.Nodes id nd }
              (resolvePath env b (findModuleNode env b ("module." ++ mn)).1)
              ("module." ++ mn) (id :: v) hMM
            rw [heqA] at hs
            cases hs
          · rename_i g₁ v₁ heqA
            have hM₁ : g₁.MaxDepth = M :=
              (traverseModuleDirectory_pres hpres _ _ _ d _ (g₁, v₁) heqA).trans hMM
            exact tnTail_suff hsuff hpres b id g₁ v₁ hM₁
        · rw [if_neg hpm]
          exact tnTail_suff hsuff hpres b id g (id :: v) hM
      · rw [if_neg hm]
        exact tnTail_suff hsuff hpres b id g (id :: v) hM

/-- `buildDependencyGraph` always returns a result: fuel `MaxDepth + 2`
suffices for the whole run. -/
theorem buildDependencyGraph_total (env : Env) (g : Graph) (basePath targetID : String) :
    (buildDependencyGraph env g basePath targetID).isSome = true := by
  rw [buildDependencyGraph]
  exact traverseNode_suff env g.MaxDepth (g.MaxDepth + 2) 0 (by omega) (by omega)
    g basePath targetID [] rfl

/-! ### Serializer lemmas -/

theorem foldl_filter_skip {α : Type} (p : α → Bool) (f : String → α → String)
    (hf : ∀ s a, p a = false → f s a = s) :
    ∀ (l : List α) (s : String), (l.filter p).foldl f s = l.foldl f s := by
  intro l
  induction l with
  | nil => intro s; rfl
  | cons a as ih =>
    intro s
    cases hp : p a with
    | true => simp only [List.filter_cons, hp, if_true, List.foldl_cons, ih]
    | false => simp only [List.filter_cons, hp, Bool.false_eq_true, if_false,
        List.foldl_cons, hf s a hp, ih]

/-- Only the depth-0 bindings of the graph influence the serializer. -/
theorem generateDOT_depth0 (g : Graph) :
    generateDOT { g with Nodes := g.Nodes.filter (fun p => p.2.Depth == 0) } = generateDOT g := by
  have hwn : writeNodes { g with Nodes := g.Nodes.filter (fun p => p.2.Depth == 0) } =
      writeNodes g := by
    rw [writeNodes, writeNodes]
    have h1 := foldl_filter_skip (fun p => p.2.Depth == 0)
      (fun acc p => if p.2.Depth == 0 then acc ++ nodeLineRoot p.1 p.2 else acc)
      (fun s a hp => by simp [hp]) g.Nodes
    have h2 := foldl_filter_skip (fun p => p.2.Depth == 0)
      (fun acc p => if p.2.Depth == 0 then
        p.2.References.foldl (fun acc cat =>
          let color₀ := colorFor cat.1
          let color := if color₀ == "" then "#DCDCDC" else color₀
          cat.2.foldl (fun acc ref => acc ++ refNodeLine ref color) acc) acc
        else acc)
      (fun s a hp => by simp [hp]) g.Nodes
    rw [h1, h2]
  have hwd : writeDependencies { g with Nodes := g.Nodes.filter (fun p => p.2.Depth == 0) } =
      writeDependencies g := by
    rw [writeDependencies, writeDependencies]
    have h3 := foldl_filter_skip (fun p => p.2.Depth == 0)
      (fun acc p => if p.2.Depth == 0 then
        p.2.References.foldl (fun acc cat =>
          cat.2.foldl (fun acc ref =>
            acc ++ "  \"" ++ ref.ID ++ "\" -> \"" ++ p.2.ID ++ "\" [style=solid];\n") acc) acc
        else acc)
      (fun s a hp => by simp [hp]) g.Nodes
    rw [h3]
  rw [generateDOT, generateDOT, hwn, hwd]

/-! ### Reference-extraction lemmas -/

theorem appendUniqueReference_of_mem (slice : List Reference) (e : Reference)
    (h : ∃ x ∈ slice, x.ID = e.ID) : appendUniqueReference slice e = slice := by
  induction slice with
  | nil => obtain ⟨x, hx, _⟩ := h; cases hx
  | cons a as ih =>
    obtain ⟨x, hx, hid⟩ := h
    rcases List.mem_cons.mp hx with h₁ | h₁
    · subst h₁
      rw [appendUniqueReference, if_pos hid]
    · by_cases ha : a.ID = e.ID
      · rw [appendUniqueReference, if_pos ha]
      · rw [appendUniqueReference, if_neg ha, ih ⟨x, h₁, hid⟩]

theorem appendUniqueReference_of_not_mem (slice : List Reference) (e : Reference)
    (h : ∀ x ∈ slice, x.ID ≠ e.ID) : appendUniqueReference slice e = slice ++ [e] := by
  induction slice with
  | nil => rfl
  | cons a as ih =>
    rw [appendUniqueReference, if_neg (h a (List.mem_cons_self a as)),
      ih (fun x hx => h x (List.mem_cons_of_mem a hx))]
    rfl

theorem appendUniqueReference_pairwise (slice : List Reference) (e : Reference)
    (h : slice.Pairwise (fun a b => a.ID ≠ b.ID)) :
    (appendUniqueReference slice e).Pairwise (fun a b => a.ID ≠ b.ID) := by
  by_cases hm : ∃ x ∈ slice, x.ID = e.ID
  · rw [appendUniqueReference_of_mem slice e hm]
    exact h
  · push_neg at hm
    rw [appendUniqueReference_of_not_mem slice e hm]
    rw [List.pairwise_append]
    refine ⟨h, List.pairwise_singleton _ _, ?_⟩
    intro a ha b hb
    rw [List.mem_singleton] at hb
    subst hb
    exact hm a ha

theorem mem_appendUniqueReference (slice : List Reference) (e x : Reference)
    (h : x ∈ appendUniqueReference slice e) : x ∈ slice ∨ x = e := by
  induction slice with
  | nil =>
    rw [appendUniqueReference] at h
    exact Or.inr (List.mem_singleton.mp h)
  | cons a as ih =>
    rw [appendUniqueReference] at h
    by_cases ha : a.ID = e.ID
    · rw [if_pos ha] at h
      exact Or.inl h
    · rw [if_neg ha] at h
      rcases List.mem_cons.mp h with h₁ | h₁
      · exact Or.inl (h₁ ▸ List.mem_cons_self a as)
      · rcases ih h₁ with h₂ | h₂
        · exact Or.inl (List.mem_cons_of_mem a h₂)
        · exact Or.inr h₂

theorem mem_refsSet (m : List (String × List Reference)) (cat : String)
    (val : List Reference) (c : String × List Reference)
    (h : c ∈ refsSet m cat val) : c ∈ m ∨ c = (cat, val) := by
  induction m with
  | nil =>
    rw [refsSet] at h
    exact Or.inr (List.mem_singleton.mp h)
  | cons p rest ih =>
    obtain ⟨c₀, rs₀⟩ := p
    rw [refsSet] at h
    by_cases hc : c₀ = cat
    · rw [if_pos hc] at h
      rcases List.mem_cons.mp h with h₁ | h₁
      · exact Or.inr h₁
      · exact Or.inl (List.mem_cons_of_mem _ h₁)
    · rw [if_neg hc] at h
      rcases List.mem_cons.mp h with h₁ | h₁
      · exact Or.inl (h₁ ▸ List.mem_cons_self _ _)
      · rcases ih h₁ with h₂ | h₂
        · exact Or.inl (List.mem_cons_of_mem _ h₂)
        · exact Or.inr h₂

theorem mem_refsGet (m : List (String × List Reference)) (cat : String) (r : Reference)
    (h : r ∈ refsGet m cat) : ∃ c ∈ m, r ∈ c.2 := by
  rw [refsGet] at h
  cases hf : m.find? (fun p => p.1 == cat) with
  | none => rw [hf] at h; cases h
  | some p =>
    rw [hf] at h
    exact ⟨p, List.mem_of_find?_eq_some hf, h⟩

/-- Per-category uniqueness of a reference map. -/
def RefsUnique (m : List (String × List Reference)) : Prop :=
  ∀ c ∈ m, c.2.Pairwise (fun a b => a.ID ≠ b.ID)

theorem refsGet_pairwise (m : List (String × List Reference)) (cat : String)
    (h : RefsUnique m) : (refsGet m cat).Pairwise (fun a b => a.ID ≠ b.ID) := by
  rw [refsGet]
  cases hf : m.find? (fun p => p.1 == cat) with
  | none => exact List.Pairwise.nil
  | some p => exact h p (List.mem_of_find?_eq_some hf)

theorem refsSet_unique (m : List (String × List Reference)) (cat : String)
    (e : Reference) (h : RefsUnique m) :
    RefsUnique (refsSet m cat (appendUniqueReference (refsGet m cat) e)) := by
  intro c hc
  rcases mem_refsSet _ _ _ _ hc with h₁ | h₁
  · exact h c h₁
  · subst h₁
    exact appendUniqueReference_pairwise _ _ (refsGet_pairwise m cat h)

/-- The property every reference recorded by `extractReferences` enjoys:
observed in the given file, a full (untruncated) dotted path of one of
the block's variable traversals, with at least two dot-separated
segments. -/
def GoodRef (block : Block) (filePath : String) (r : Reference) : Prop :=
  r.Path = filePath ∧ (splitN2 r.ID).length = 2 ∧
    ∃ a ∈ block.attrs, ∃ v ∈ a.vars, r.ID = traversalToReference v

/-- All references of a map satisfy `P`. -/
def AllRefs (P : Reference → Prop) (m : List (String × List Reference)) : Prop :=
  ∀ c ∈ m, ∀ r ∈ c.2, P r

theorem allRefs_refsSet (P : Reference → Prop) (m : List (String × List Reference))
    (cat : String) (e : Reference) (hm : AllRefs P m) (he : P e) :
    AllRefs P (refsSet m cat (appendUniqueReference (refsGet m cat) e)) := by
  intro c hc r hr
  rcases mem_refsSet _ _ _ _ hc with h₁ | h₁
  · exact hm c h₁ r hr
  · subst h₁
    rcases mem_appendUniqueReference _ _ _ hr with h₂ | h₂
    · obtain ⟨c', hc', hr'⟩ := mem_refsGet m cat r h₂
      exact hm c' hc' r hr'
    · exact h₂ ▸ he

theorem splitN2_length (s : String) :
    (splitN2 s).length = 1 ∨ (splitN2 s).length = 2 := by
  rw [splitN2]
  by_cases h : s.toList.contains '.' = true
  · rw [if_pos h]
    exact Or.inr rfl
  · rw [if_neg h]
    exact Or.inl rfl

theorem foldl_preserve {α β : Type} (P : β → Prop) (f : β → α → β) :
    ∀ (l : List α) (b : β), (∀ b a, a ∈ l → P b → P (f b a)) → P b → P (l.foldl f b) := by
  intro l
  induction l with
  | nil =>
    intro b _ h
    exact h
  | cons x xs ih =>
    intro b hstep h
    exact ih (f b x) (fun b' a ha => hstep b' a (List.mem_cons_of_mem _ ha))
      (hstep b x (List.mem_cons_self _ _) h)

theorem extractReferences_unique (block : Block) (fp : String) :
    RefsUnique (extractReferences block fp) := by
  rw [extractReferences]
  apply foldl_preserve RefsUnique _ block.attrs []
  · intro refs a _ h
    apply foldl_preserve RefsUnique _ a.vars refs
    · intro refs' v _ h'
      simp only []
      by_cases h0 : traversalToReference v = ""
      · rw [if_pos h0]
        exact h'
      · rw [if_neg h0]
        by_cases h1 : (splitN2 (traversalToReference v)).length < 2
        · rw [if_pos h1]
          exact h'
        · rw [if_neg h1]
          by_cases h2 : (splitN2 (traversalToReference v)).headD "" = "var"
          · rw [if_pos h2]
            exact refsSet_unique _ _ _ h'
          · rw [if_neg h2]
            by_cases h3 : (splitN2 (traversalToReference v)).headD "" = "module"
            · rw [if_pos h3]
              exact refsSet_unique _ _ _ h'
            · rw [if_neg h3]
              by_cases h4 : (splitN2 (traversalToReference v)).headD "" = "data"
              · rw [if_pos h4]
                exact refsSet_unique _ _ _ h'
              · rw [if_neg h4]
                exact refsSet_unique _ _ _ h'
    · exact h
  · intro c hc
    cases hc

theorem extractReferences_goodRefs (block : Block) (fp : String) :
    AllRefs (GoodRef block fp) (extractReferences block fp) := by
  rw [extractReferences]
  apply foldl_preserve (AllRefs (GoodRef block fp)) _ block.attrs []
  · intro refs a ha h
    apply foldl_preserve (AllRefs (GoodRef block fp)) _ a.vars refs
    · intro refs' v hv h'
      simp only []
      by_cases h0 : traversalToReference v = ""
      · rw [if_pos h0]
        exact h'
      · rw [if_neg h0]
        by_cases h1 : (splitN2 (traversalToReference v)).length < 2
        · rw [if_pos h1]
          exact h'
        · rw [if_neg h1]
          have hlen : (splitN2 (traversalToReference v)).length = 2 := by
            rcases splitN2_length (traversalToReference v) with h₂ | h₂
            · omega
            · exact h₂
          have hgood : GoodRef block fp ⟨traversalToReference v, fp⟩ :=
            ⟨rfl, hlen, a, ha, v, hv, rfl⟩
          by_cases h2 : (splitN2 (traversalToReference v)).headD "" = "var"
          · rw [if_pos h2]
            exact allRefs_refsSet _ _ _ _ h' hgood
          · rw [if_neg h2]
            by_cases h3 : (splitN2 (traversalToReference v)).headD "" = "module"
            · rw [if_pos h3]
              exact allRefs_refsSet _ _ _ _ h' hgood
            · rw [if_neg h3]
              by_cases h4 : (splitN2 (traversalToReference v)).headD "" = "data"
              · rw [if_pos h4]
                exact allRefs_refsSet _ _ _ _ h' hgood
              · rw [if_neg h4]
                exact allRefs_refsSet _ _ _ _ h' hgood
    · exact h
  · intro c hc
    cases hc

/-! ### Claim C8 -/

/-- C8: the serializer renders node lines and edge lines only from
depth-0 Nodes and their References — restricting the Graph to its
depth-0 bindings leaves the emitted DOT text unchanged, so every Node
stored with depth greater than 0 contributes no node line and no edge
line. -/
theorem c8_serializer_renders_only_depth0 (g : Graph) :
    generateDOT { g with Nodes := g.Nodes.filter (fun p => p.2.Depth == 0) } = generateDOT g :=
  generateDOT_depth0 g

/-! ### Claim C6 -/

/-- C6: in every category of an extractor result no two References share
an identifier, and `appendUniqueReference` implements first-seen-wins:
a duplicate identifier leaves the slice unchanged (keeping the existing
entry with its file path), a new identifier is appended at the end. -/
theorem c6_reference_uniqueness :
    (∀ (block : Block) (fp : String) (c : String × List Reference),
      c ∈ extractReferences block fp → c.2.Pairwise (fun a b => a.ID ≠ b.ID)) ∧
    (∀ (slice : List Reference) (e : Reference),
      (∃ x ∈ slice, x.ID = e.ID) → appendUniqueReference slice e = slice) ∧
    (∀ (slice : List Reference) (e : Reference),
      (∀ x ∈ slice, x.ID ≠ e.ID) → appendUniqueReference slice e = slice ++ [e]) :=
  ⟨fun block fp c hc => extractReferences_unique block fp c hc,
   appendUniqueReference_of_mem, appendUniqueReference_of_not_mem⟩

theorem c6_reference_uniqueness_witness :
    appendUniqueReference [⟨"var.x", "a.tf"⟩] ⟨"var.x", "b.tf"⟩ = [⟨"var.x", "a.tf"⟩] ∧
    appendUniqueReference [⟨"var.x", "a.tf"⟩] ⟨"var.y", "b.tf"⟩ =
      [⟨"var.x", "a.tf"⟩, ⟨"var.y", "b.tf"⟩] :=
  ⟨c6_reference_uniqueness.2.1 [⟨"var.x", "a.tf"⟩] ⟨"var.x", "b.tf"⟩
      ⟨⟨"var.x", "a.tf"⟩, by decide, rfl⟩,
   c6_reference_uniqueness.2.2 [⟨"var.x", "a.tf"⟩] ⟨"var.y", "b.tf"⟩ (by decide)⟩

/-! ### Claim C5 -/

/-- The block of the C5 counterexample: one attribute whose expression
contains the variable `aws_instance.foo.id`. -/
def c5Block : Block :=
  ⟨"resource", ["a", "b"], [⟨"attr1", [[.root "aws_instance", .attr "foo", .attr "id"]], none⟩]⟩

/-- C5 counterexample: the extractor records the reference of
`aws_instance.foo.id` with the FULL dotted path as its identifier — it
is not truncated to `aws_instance.foo`, contradicting the claim. -/
theorem c5_counterexample :
    extractReferences c5Block "f.tf" = [("resource", [⟨"aws_instance.foo.id", "f.tf"⟩])] ∧
    (extractReferences c5Block "f.tf").all
      (fun c => c.2.all (fun r => r.ID != "aws_instance.foo")) = true :=
  ⟨by decide, by decide⟩

/-- C5 amended: every Reference the extractor records carries the full
dotted path of one of the block's variable traversals as its identifier
(no truncation), observed in the given file; its path has at least two
dot-separated segments, so dotted paths with fewer than two segments are
discarded and produce no Reference in any category. -/
theorem c5_full_path_recorded (block : Block) (fp : String) (c : String × List Reference)
    (hc : c ∈ extractReferences block fp) (r : Reference) (hr : r ∈ c.2) :
    r.Path = fp ∧ (splitN2 r.ID).length = 2 ∧
      ∃ a ∈ block.attrs, ∃ v ∈ a.vars, r.ID = traversalToReference v :=
  extractReferences_goodRefs block fp c hc r hr

theorem c5_full_path_recorded_witness :
    (⟨"aws_instance.foo.id", "f.tf"⟩ : Reference).Path = "f.tf" ∧
    (splitN2 (⟨"aws_instance.foo.id", "f.tf"⟩ : Reference).ID).length = 2 ∧
      ∃ a ∈ c5Block.attrs, ∃ v ∈ a.vars,
        (⟨"aws_instance.foo.id", "f.tf"⟩ : Reference).ID = traversalToReference v :=
  c5_full_path_recorded c5Block "f.tf" ("resource", [⟨"aws_instance.foo.id", "f.tf"⟩])
    (by decide) ⟨"aws_instance.foo.id", "f.tf"⟩ (by decide)

/-! ### Claim C10 -/

/-- The scenario environment for C10: one resource `aws_instance.web`
whose single attribute references `local.ami`. -/
def e10Env : Env :=
  { files := fun p =>
      if p == "/b" then
        [⟨"/b/main.tf", some [
            ⟨"resource", ["aws_instance", "web"],
              [⟨"x", [[.root "local", .attr "ami"]], none⟩]⟩]⟩]
      else [],
    dirExists := fun _ => false,
    joinPath := fun a b => a ++ "/" ++ b,
    cleanPath := fun s => s,
    isAbsPath := fun s => strStartsWith s "/" }

/-- C10: a reference whose dotted path begins with the segment `local`
is classified into the `resource` category (the extractor's default
branch); the traverser's reference loop never expands a `local.`-prefixed
reference into a separate Node; and in the scenario run the serializer
still renders the `local.ami` reference of the depth-0 node as a filled
node with the resource-category color `#DDA0DD` and a solid edge into the
root, while `local.ami` is not a key of the Graph. -/
theorem c10_local_refs :
    (∀ (x fp ty an : String) (ls : List String) (sv : Option String),
      extractReferences ⟨ty, ls, [⟨an, [[.root "local", .attr x]], sv⟩]⟩ fp =
        [("resource", [⟨"local." ++ x, fp⟩])]) ∧
    (∀ (tn : TravRec) (g : Graph) (b : String) (d : Nat) (v : List String)
      (ref : Reference) (rest : List Reference),
      strStartsWith ref.ID "local." = true →
      traverseRefList tn g b d v (ref :: rest) = traverseRefList tn g b d v rest) ∧
    (buildDependencyGraph e10Env ⟨[], 3⟩ "/b" "aws_instance.web").map
      (fun r => r.1.Nodes.map Prod.fst) = some ["aws_instance.web"] ∧
    (buildDependencyGraph e10Env ⟨[], 3⟩ "/b" "aws_instance.web").map
      (fun r => generateDOT r.1) =
      some ("digraph terraform \x7b\n  rankdir = LR;\n  compound = true;\n\n  // Node styles\n  node [shape=box, style=rounded];\n\n  \"aws_instance.web\" [label=\"aws_instance.web\\n(/b/main.tf)\", color=red];\n\n  // Referenced nodes\n  \"local.ami\" [label=\"local.ami\\n(/b/main.tf)\", fillcolor=\"#DDA0DD\", style=\"filled,rounded\"];\n\n  // Dependencies\n  \"local.ami\" -> \"aws_instance.web\" [style=solid];\n\x7d\n") := by
  refine ⟨?_, ?_, ?_, ?_⟩
  · intro x fp ty an ls sv
    rfl
  · intro tn g b d v ref rest h
    rw [traverseRefList]
    simp only [h, Bool.not_true, Bool.and_false]
    rfl
  · decide
  · decide

theorem c10_local_refs_witness :
    extractReferences ⟨"resource", ["aws_instance", "web"],
        [⟨"x", [[Traverser.root "local", Traverser.attr "ami"]], none⟩]⟩ "/b/main.tf" =
      [("resource", [⟨"local." ++ "ami", "/b/main.tf"⟩])] ∧
    traverseRefList (traverseNode e10Env 1) ⟨[], 3⟩ "/b" 0 []
        [⟨"local.ami", "/b/main.tf"⟩] =
      traverseRefList (traverseNode e10Env 1) ⟨[], 3⟩ "/b" 0 [] [] :=
  ⟨c10_local_refs.1 "ami" "/b/main.tf" "resource" "x" ["aws_instance", "web"] none,
   c10_local_refs.2.1 (traverseNode e10Env 1) ⟨[], 3⟩ "/b" 0 []
     ⟨"local.ami", "/b/main.tf"⟩ [] (by decide)⟩

/-- Classification of a reference by the first segment of its dotted
path, as `extractReferences` performs it (proof-layer helper). -/
def classifyCat (pfx : String) : String :=
  if pfx = "var" then "variable"
  else if pfx = "module" then "module"
  else if pfx = "data" then "data"
  else "resource"

theorem dotcat_ne_empty (a b : String) : ¬(a ++ "." ++ b = "") := by
  intro h
  have hd : (a ++ "." ++ b).data = ("" : String).data := by rw [h]
  rw [String.data_append, String.data_append] at hd
  simp at hd

theorem dotcat_contains (a b : String) :
    ((a ++ "." ++ b).toList).contains '.' = true := by
  rw [contains_iff_mem]
  rw [String.toList, String.data_append, String.data_append]
  have h : '.' ∈ ("." : String).data := by decide
  exact List.mem_append_left _ (List.mem_append_right _ h)

theorem splitN2_dotcat_length (a b : String) :
    (splitN2 (a ++ "." ++ b)).length = 2 := by
  rw [splitN2, if_pos (dotcat_contains a b)]
  rfl

theorem extract_single (ty : String) (ls : List String) (an x y : String)
    (sv : Option String) (fp : String) :
    extractReferences ⟨ty, ls, [⟨an, [[.root x, .attr y]], sv⟩]⟩ fp =
      [(classifyCat ((splitN2 (x ++ "." ++ y)).headD ""), [⟨x ++ "." ++ y, fp⟩])] := by
  rw [extractReferences]
  simp only [List.foldl_cons, List.foldl_nil]
  have htr : traversalToReference [.root x, .attr y] = x ++ "." ++ y := rfl
  rw [htr, if_neg (dotcat_ne_empty x y),
    if_neg (by rw [splitN2_dotcat_length]; omega :
      ¬(splitN2 (x ++ "." ++ y)).length < 2)]
  rw [classifyCat]
  by_cases h2 : (splitN2 (x ++ "." ++ y)).headD "" = "var"
  · rw [if_pos h2, if_pos h2]
    rfl
  · rw [if_neg h2, if_neg h2]
    by_cases h3 : (splitN2 (x ++ "." ++ y)).headD "" = "module"
    · rw [if_pos h3, if_pos h3]
      rfl
    · rw [if_neg h3, if_neg h3]
      by_cases h4 : (splitN2 (x ++ "." ++ y)).headD "" = "data"
      · rw [if_pos h4, if_pos h4]
        rfl
      · rw [if_neg h4, if_neg h4]
        rfl

/-- Applied one-step unfolding of `traverseNode` at positive fuel (the
definition restated; used for controlled rewriting). -/
theorem traverseNode_succ (env : Env) (fuel : Nat) (graph : Graph)
    (basePath nodeID : String) (depth : Nat) (processedNodes : List String) :
    traverseNode env (fuel + 1) graph basePath nodeID depth processedNodes =
      (if depth > graph.MaxDepth ∨ processedNodes.contains nodeID = true then
        some (graph, processedNodes)
      else
        match
          (if strStartsWith nodeID "module." = true then
            let moduleName₀ := (strSplitDot nodeID).getD 1 ""
            let moduleName :=
              if (splitN2 moduleName₀).length > 1 then (splitN2 moduleName₀).headD ""
              else moduleName₀
            let pm := findModuleNode env basePath ("module." ++ moduleName)
            if pm.1 ≠ "" then
              traverseModuleDirectory env (traverseNode env fuel)
                { graph with Nodes := insertNode graph.Nodes nodeID { pm.2 with Depth := depth } }
                (resolvePath env basePath pm.1) ("module." ++ moduleName) depth
                (nodeID :: processedNodes)
            else some (graph, nodeID :: processedNodes)
          else some (graph, nodeID :: processedNodes)) with
        | none => none
        | some (graph, processedNodes) =>
          match findResourceNode env basePath nodeID with
          | none => some (graph, processedNodes)
          | some node =>
            traverseRefCats (traverseNode env fuel)
              { graph with Nodes := insertNode graph.Nodes nodeID { node with Depth := depth } }
              basePath depth processedNodes node.References) := rfl

/-- A call on an already-visited identifier is a no-op (given any
positive fuel). -/
theorem traverseNode_visited (env : Env) (fuel : Nat) (g : Graph) (b id : String)
    (d : Nat) (v : List String) (h : v.contains id = true) :
    traverseNode env (fuel + 1) g b id d v = some (g, v) := by
  rw [traverseNode_succ, if_pos (Or.inr h)]

/-! ### Claim C1 -/

/-- The two-resource cyclic configuration of C1: resource A (labels
`tA`, `nA`) references B and resource B (labels `tB`, `nB`) references
A, both in one file under base directory `/base`. -/
def cycleEnv (tA nA tB nB : String) : Env :=
  { files := fun p =>
      if p == "/base" then
        [⟨"/base/main.tf", some [
            ⟨"resource", [tA, nA], [⟨"x", [[.root tB, .attr nB]], none⟩]⟩,
            ⟨"resource", [tB, nB], [⟨"y", [[.root tA, .attr nA]], none⟩]⟩]⟩]
      else [],
    dirExists := fun _ => false,
    joinPath := fun a b => a ++ "/" ++ b,
    cleanPath := fun s => s,
    isAbsPath := fun s => strStartsWith s "/" }

theorem cycleEnv_locateA (tA nA tB nB : String) :
    findResourceNode (cycleEnv tA nA tB nB) "/base" (tA ++ "." ++ nA) =
      some ⟨tA ++ "." ++ nA, "resource", nA, "/base/main.tf",
        extractReferences ⟨"resource", [tA, nA], [⟨"x", [[.root tB, .attr nB]], none⟩]⟩
          "/base/main.tf", 0⟩ := by
  rw [findResourceNode]
  show findInFiles [⟨"/base/main.tf", some [
      ⟨"resource", [tA, nA], [⟨"x", [[.root tB, .attr nB]], none⟩]⟩,
      ⟨"resource", [tB, nB], [⟨"y", [[.root tA, .attr nA]], none⟩]⟩]⟩]
    (tA ++ "." ++ nA) = _
  rw [findInFiles]
  show (match findNodeInBlocks [
      ⟨"resource", [tA, nA], [⟨"x", [[.root tB, .attr nB]], none⟩]⟩,
      ⟨"resource", [tB, nB], [⟨"y", [[.root tA, .attr nA]], none⟩]⟩]
      (tA ++ "." ++ nA) "/base/main.tf" with
    | some node => some node
    | none => findInFiles [] (tA ++ "." ++ nA)) = _
  rw [findNodeInBlocks]
  have hc : getBlockID ⟨"resource", [tA, nA], [⟨"x", [[.root tB, .attr nB]], none⟩]⟩ =
      tA ++ "." ++ nA := rfl
  rw [hc, if_pos rfl]
  rfl

theorem cycleEnv_locateB (tA nA tB nB : String)
    (hAB : ¬(tA ++ "." ++ nA = tB ++ "." ++ nB)) :
    findResourceNode (cycleEnv tA nA tB nB) "/base" (tB ++ "." ++ nB) =
      some ⟨tB ++ "." ++ nB, "resource", nB, "/base/main.tf",
        extractReferences ⟨"resource", [tB, nB], [⟨"y", [[.root tA, .attr nA]], none⟩]⟩
          "/base/main.tf", 0⟩ := by
  rw [findResourceNode]
  show findInFiles [⟨"/base/main.tf", some [
      ⟨"resource", [tA, nA], [⟨"x", [[.root tB, .attr nB]], none⟩]⟩,
      ⟨"resource", [tB, nB], [⟨"y", [[.root tA, .attr nA]], none⟩]⟩]⟩]
    (tB ++ "." ++ nB) = _
  rw [findInFiles]
  show (match findNodeInBlocks [
      ⟨"resource", [tA, nA], [⟨"x", [[.root tB, .attr nB]], none⟩]⟩,
      ⟨"resource", [tB, nB], [⟨"y", [[.root tA, .attr nA]], none⟩]⟩]
      (tB ++ "." ++ nB) "/base/main.tf" with
    | some node => some node
    | none => findInFiles [] (tB ++ "." ++ nB)) = _
  rw [findNodeInBlocks]
  have hcA : getBlockID ⟨"resource", [tA, nA], [⟨"x", [[.root tB, .attr nB]], none⟩]⟩ =
      tA ++ "." ++ nA := rfl
  rw [hcA, if_neg hAB, findNodeInBlocks]
  have hcB : getBlockID ⟨"resource", [tB, nB], [⟨"y", [[.root tA, .attr nA]], none⟩]⟩ =
      tB ++ "." ++ nB := rfl
  rw [hcB, if_pos rfl]
  rfl

/-- C1: in the cyclic two-resource configuration (A references B, B
references A), the traversal entry point on A with `maxDepth ≥ 2`
terminates with a result, and the resulting Graph node map holds exactly
the two bindings A and B (each identifier a key exactly once). -/
theorem c1_cycle_terminates (tA nA tB nB : String) (M : Nat) (hM : 2 ≤ M)
    (hAB : ¬(tA ++ "." ++ nA = tB ++ "." ++ nB))
    (hAmod : strStartsWith (tA ++ "." ++ nA) "module." = false)
    (hBmod : strStartsWith (tB ++ "." ++ nB) "module." = false)
    (hBvar : strStartsWith (tB ++ "." ++ nB) "var." = false)
    (hBloc : strStartsWith (tB ++ "." ++ nB) "local." = false) :
    ∃ (nodeA nodeB : Node) (v : List String),
      buildDependencyGraph (cycleEnv tA nA tB nB) ⟨[], M⟩ "/base" (tA ++ "." ++ nA) =
        some (⟨[(tA ++ "." ++ nA, nodeA), (tB ++ "." ++ nB, nodeB)], M⟩, v) := by
  obtain ⟨M', rfl⟩ : ∃ M', M = M' + 2 := ⟨M - 2, by omega⟩
  refine ⟨⟨tA ++ "." ++ nA, "resource", nA, "/base/main.tf",
      [(classifyCat ((splitN2 (tB ++ "." ++ nB)).headD ""),
        [⟨tB ++ "." ++ nB, "/base/main.tf"⟩])], 0⟩,
    ⟨tB ++ "." ++ nB, "resource", nB, "/base/main.tf",
      [(classifyCat ((splitN2 (tA ++ "." ++ nA)).headD ""),
        [⟨tA ++ "." ++ nA, "/base/main.tf"⟩])], 1⟩,
    [tB ++ "." ++ nB, tA ++ "." ++ nA], ?_⟩
  rw [buildDependencyGraph]
  show traverseNode (cycleEnv tA nA tB nB) ((M' + 3) + 1) ⟨[], M' + 2⟩ "/base"
    (tA ++ "." ++ nA) 0 [] = _
  rw [traverseNode_succ]
  rw [if_neg (show ¬(0 > (⟨[], M' + 2⟩ : Graph).MaxDepth ∨
      List.contains [] (tA ++ "." ++ nA) = true) by
    rw [not_or]
    exact ⟨by omega, Bool.false_ne_true⟩)]
  rw [if_neg (show ¬(strStartsWith (tA ++ "." ++ nA) "module." = true) by
    simp [hAmod])]
  simp only []
  rw [cycleEnv_locateA]
  simp only []
  rw [extract_single]
  rw [traverseRefCats]
  simp only []
  rw [traverseRefList]
  rw [if_pos (show (!(strStartsWith (tB ++ "." ++ nB) "var.") &&
      !(strStartsWith (tB ++ "." ++ nB) "local.")) = true by
    rw [hBvar, hBloc]
    rfl)]
  rw [show (M' + 3 : Nat) = (M' + 2) + 1 from rfl]
  rw [traverseNode_succ]
  rw [if_neg (show ¬(0 + 1 > M' + 2 ∨
      [tA ++ "." ++ nA].contains (tB ++ "." ++ nB) = true) by
    rw [not_or]
    refine ⟨by omega, ?_⟩
    intro hcont
    exact hAB (List.mem_singleton.mp ((contains_iff_mem _ _).mp hcont)).symm)]
  rw [if_neg (show ¬(strStartsWith (tB ++ "." ++ nB) "module." = true) by
    simp [hBmod])]
  simp only []
  rw [cycleEnv_locateB _ _ _ _ hAB]
  simp only []
  rw [extract_single]
  simp only [insertNode]
  rw [if_neg hAB]
  rw [traverseRefCats]
  simp only []
  rw [traverseRefList]
  simp only []
  cases hb : (!(strStartsWith (tA ++ "." ++ nA) "var.") &&
      !(strStartsWith (tA ++ "." ++ nA) "local.")) with
  | false => rfl
  | true =>
    rw [show (M' + 2 : Nat) = (M' + 1) + 1 from rfl]
    rw [traverseNode_visited _ _ _ _ _ _ _ ((contains_iff_mem
      [tB ++ "." ++ nB, tA ++ "." ++ nA] (tA ++ "." ++ nA)).mpr (by simp))]
    rfl


theorem c1_cycle_terminates_witness :
    ∃ (nodeA nodeB : Node) (v : List String),
      buildDependencyGraph (cycleEnv "aws_a" "a" "aws_b" "b") ⟨[], 2⟩ "/base"
          ("aws_a" ++ "." ++ "a") =
        some (⟨[("aws_a" ++ "." ++ "a", nodeA), ("aws_b" ++ "." ++ "b", nodeB)], 2⟩, v) :=
  c1_cycle_terminates "aws_a" "a" "aws_b" "b" 2 (by decide) (by decide) (by decide)
    (by decide) (by decide) (by decide)

/-! ### Claim C2 -/

/-- The configuration of the C2 counterexample (and C9): root resource
`aws_instance.r` references `module.net` and `aws_instance.x`;
`aws_instance.x` references `module.net.id`; module `net` has relative
source `./m`, whose directory contains resource `aws_subnet.s`. -/
def e2Env : Env :=
  { files := fun p =>
      if p == "/b" then
        [⟨"/b/main.tf", some [
            ⟨"resource", ["aws_instance", "r"],
              [⟨"m", [[.root "module", .attr "net"]], none⟩,
               ⟨"x", [[.root "aws_instance", .attr "x"]], none⟩]⟩,
            ⟨"resource", ["aws_instance", "x"],
              [⟨"y", [[.root "module", .attr "net", .attr "id"]], none⟩]⟩]⟩,
         ⟨"/b/mod.tf", some [
            ⟨"module", ["net"], [⟨"source", [], some "./m"⟩]⟩]⟩]
      else if p == "/b/./m" then
        [⟨"/b/./m/s.tf", some [⟨"resource", ["aws_subnet", "s"], []⟩]⟩]
      else [],
    dirExists := fun p => p == "/b/./m",
    joinPath := fun a b => a ++ "/" ++ b,
    cleanPath := fun s => s,
    isAbsPath := fun s => strStartsWith s "/" }

/-- The root node of `e2Env` as the Locator finds it. -/
def e2RootNode : Node :=
  ⟨"aws_instance.r", "resource", "r", "/b/main.tf",
    extractReferences ⟨"resource", ["aws_instance", "r"],
      [⟨"m", [[.root "module", .attr "net"]], none⟩,
       ⟨"x", [[.root "aws_instance", .attr "x"]], none⟩]⟩ "/b/main.tf", 0⟩

/-- C2 counterexample: in `e2Env` the identifier
`module.net/aws_subnet.s` is first discovered — by the sub-call on
`module.net` at depth 1, exactly the first recursive step the full run
performs after registering the root — with `Depth = 2`, yet the full run
ends with that identifier stored at `Depth = 3`: the later expansion of
the same module directory under the distinct suffixed key
`module.net.id` re-registered it with no visited or presence check,
overwriting the first-discovery Node.  The stored depth is therefore not
the depth of first discovery, refuting the claim. -/
theorem c2_counterexample :
    (traverseNode e2Env 4 ⟨[("aws_instance.r", e2RootNode)], 3⟩ "/b" "module.net" 1
        ["aws_instance.r"]).map
      (fun r => (lookupNode r.1.Nodes "module.net/aws_subnet.s").map Node.Depth) =
      some (some 2) ∧
    (buildDependencyGraph e2Env ⟨[], 3⟩ "/b" "aws_instance.r").map
      (fun r => (lookupNode r.1.Nodes "module.net/aws_subnet.s").map Node.Depth) =
      some (some 3) :=
  ⟨by decide, by decide⟩

/-- C2 amended: each identifier maps to at most one Node (the traversal
preserves key-uniqueness of the node map), and a `traverseNode` call on
an already-visited identifier changes nothing; but `Node.Depth` equals
the depth of first discovery only for identifiers never re-registered by
module-directory expansion, which overwrites previously stored module-
internal Nodes (last write wins). -/
theorem c2_amended_visited_noop_unique_keys :
    (∀ (env : Env) (fuel : Nat) (g : Graph) (b id : String) (d : Nat) (v : List String),
      v.contains id = true → traverseNode env (fuel + 1) g b id d v = some (g, v)) ∧
    (∀ (env : Env) (fuel : Nat) (g : Graph) (b id : String) (d : Nat) (v : List String)
      (r : TravState), traverseNode env fuel g b id d v = some r →
      (g.Nodes.map Prod.fst).Nodup → (r.1.Nodes.map Prod.fst).Nodup) :=
  ⟨fun env fuel g b id d v h => traverseNode_visited env fuel g b id d v h,
   fun env fuel g b id d v r hr hn =>
     ((traverseNode_inv env fuel g b id d v r hr).2).2.2.1 hn⟩

theorem c2_amended_witness :
    traverseNode e2Env 1 ⟨[], 3⟩ "/b" "aws_instance.r" 0 ["aws_instance.r"] =
      some (⟨[], 3⟩, ["aws_instance.r"]) ∧
    (([] : List (String × Node)).map Prod.fst).Nodup :=
  ⟨c2_amended_visited_noop_unique_keys.1 e2Env 0 ⟨[], 3⟩ "/b" "aws_instance.r" 0
      ["aws_instance.r"] (by decide),
   c2_amended_visited_noop_unique_keys.2 e2Env 1 ⟨[], 3⟩ "/b" "aws_instance.r" 0
      ["aws_instance.r"] (⟨[], 3⟩, ["aws_instance.r"])
      (c2_amended_visited_noop_unique_keys.1 e2Env 0 ⟨[], 3⟩ "/b" "aws_instance.r" 0
        ["aws_instance.r"] (by decide)) List.nodup_nil⟩

/-- The `moduleName` computation of `traverseNode`'s module branch
(graph.go): second dot-segment of the identifier, truncated at any
further dot. -/
def moduleNameOf (nodeID : String) : String :=
  if (splitN2 ((strSplitDot nodeID).getD 1 "")).length > 1 then
    (splitN2 ((strSplitDot nodeID).getD 1 "")).headD ""
  else (strSplitDot nodeID).getD 1 ""

theorem filter_depth0_singleton :
    ∀ (l : List (String × Node)) (t : String) (n₀ : Node),
      (l.map Prod.fst).Nodup → lookupNode l t = some n₀ →
      (∀ k n, lookupNode l k = some n → k = t ∨ 1 ≤ n.Depth) →
      n₀.Depth = 0 →
      l.filter (fun p => p.2.Depth == 0) = [(t, n₀)] := by
  intro l
  induction l with
  | nil =>
    intro t n₀ _ hl _ _
    rw [lookupNode] at hl
    cases hl
  | cons p rest ih =>
    intro t n₀ hnd hl hother hd0
    obtain ⟨k₀, m⟩ := p
    rw [List.map_cons, List.nodup_cons] at hnd
    by_cases hk : k₀ = t
    · subst hk
      rw [lookupNode_cons_self, Option.some.injEq] at hl
      subst hl
      have hpt : ((k₀, m).2.Depth == 0) = true := by
        rw [hd0]
        rfl
      rw [List.filter_cons, if_pos hpt]
      have hrest : rest.filter (fun q => q.2.Depth == 0) = [] := by
        rw [List.filter_eq_nil_iff]
        intro q hq
        obtain ⟨k, n⟩ := q
        have hkmem : k ∈ rest.map Prod.fst := List.mem_map_of_mem Prod.fst hq
        have hkne : k ≠ k₀ := fun he => hnd.1 (he ▸ hkmem)
        have hln : lookupNode ((k₀, m) :: rest) k = some n := by
          rw [lookupNode_cons_ne _ _ _ _ (Ne.symm hkne)]
          exact lookupNode_eq_some_of_mem rest k n hnd.2 hq
        rcases hother k n hln with h | h
        · exact absurd h hkne
        · simp only [beq_iff_eq]
          omega
      rw [hrest]
    · rw [lookupNode_cons_ne _ _ _ _ hk] at hl
      have hdm : 1 ≤ m.Depth := by
        rcases hother k₀ m (lookupNode_cons_self k₀ m rest) with h | h
        · exact absurd h hk
        · exact h
      have hpf : ¬(((k₀, m).2.Depth == 0) = true) := by
        simp only [beq_iff_eq]
        omega
      rw [List.filter_cons, if_neg hpf]
      refine ih t n₀ hnd.2 hl ?_ hd0
      intro k n hln
      have hkne : k ≠ k₀ := by
        intro he
        subst he
        have hkmem := List.mem_map_of_mem Prod.fst (mem_of_lookupNode rest k n hln)
        exact hnd.1 hkmem
      refine hother k n ?_
      rw [lookupNode_cons_ne _ _ _ _ (Ne.symm hkne)]
      exact hln

/-! ### Claim C3 -/

/-- The C3/C4 counterexample configuration: the base directory declares a
single module `net` with relative source `./m`; the module directory
contains resource `aws_subnet.s`.  No resource named by any traversal
target exists, so the Locator always misses. -/
def e3Env : Env :=
  { files := fun p =>
      if p == "/b" then
        [⟨"/b/mod.tf", some [⟨"module", ["net"], [⟨"source", [], some "./m"⟩]⟩]⟩]
      else if p == "/b/./m" then
        [⟨"/b/./m/s.tf", some [⟨"resource", ["aws_subnet", "s"], []⟩]⟩]
      else [],
    dirExists := fun p => p == "/b/./m",
    joinPath := fun a b => a ++ "/" ++ b,
    cleanPath := fun s => s,
    isAbsPath := fun s => strStartsWith s "/" }

/-- An environment with no files at all. -/
def emptyEnv : Env :=
  { files := fun _ => [],
    dirExists := fun _ => false,
    joinPath := fun a b => a ++ "/" ++ b,
    cleanPath := fun s => s,
    isAbsPath := fun s => strStartsWith s "/" }

/-- C3 counterexample: for target `module.net.id` in `e3Env` the Locator
finds no declaration (`findResourceNode` is `none`), yet the full run's
Graph is not empty: the module branch of `traverseNode` runs before the
Locator, resolves module `net`, stores a Node under the full target
identifier and expands the module directory.  This refutes the clause
"if the target is not found by the locator, the Graph's node map is
empty". -/
theorem c3_counterexample :
    findResourceNode e3Env "/b" "module.net.id" = none ∧
    (buildDependencyGraph e3Env ⟨[], 3⟩ "/b" "module.net.id").map
      (fun r => r.1.Nodes.map Prod.fst) =
      some ["module.net.id", "module.net/aws_subnet.s"] :=
  ⟨by decide, by decide⟩

/-- C3 amended: after a full run from a slash-free target, if the Locator
finds the target then exactly one Node of the Graph has depth 0, namely
the resolved target Node under the target identifier; if the Locator
misses AND the module branch does not fire (the target is not
`module.`-shaped, or its module cannot be resolved), the Graph is empty.
(When the Locator misses but the module branch resolves, the Graph can
be non-empty — see the counterexample.) -/
theorem c3_depth_zero_exclusivity :
    (∀ (env : Env) (b t : String) (M : Nat) (r : TravState) (node : Node),
      buildDependencyGraph env ⟨[], M⟩ b t = some r →
      NoSlash t →
      findResourceNode env b t = some node →
      r.1.Nodes.filter (fun p => p.2.Depth == 0) = [(t, { node with Depth := 0 })]) ∧
    (∀ (env : Env) (b t : String) (M : Nat) (r : TravState),
      buildDependencyGraph env ⟨[], M⟩ b t = some r →
      findResourceNode env b t = none →
      (strStartsWith t "module." = false ∨
        (findModuleNode env b ("module." ++ moduleNameOf t)).1 = "") →
      r.1.Nodes = []) := by
  constructor
  · intro env b t M r node hr hns hloc
    have hr0 : traverseNode env (M + 2) ⟨[], M⟩ b t 0 [] = some r := hr
    have hglob := ((traverseNode_inv env (M + 2)) ⟨[], M⟩ b t 0 [] r hr0).2
    have hnodup : (r.1.Nodes.map Prod.fst).Nodup := hglob.2.2.1 (by simp)
    have hother : ∀ k n, lookupNode r.1.Nodes k = some n → k = t ∨ 1 ≤ n.Depth := by
      intro k n hln
      rcases hglob.2.2.2.2 k n hln with h | h | h
      · rw [lookupNode] at h
        cases h
      · exact Or.inl h.1
      · exact Or.inr h
    rw [buildDependencyGraph,
      show ((⟨[], M⟩ : Graph).MaxDepth + 2) = (M + 1) + 1 from rfl,
      traverseNode_succ] at hr
    rw [if_neg (by simp :
      ¬(0 > (⟨[], M⟩ : Graph).MaxDepth ∨ ([] : List String).contains t = true))] at hr
    split at hr
    · cases hr
    · rename_i g₁ v₁ heqA
      have hmem : t ∈ v₁ := by
        by_cases hm : strStartsWith t "module." = true
        · rw [if_pos hm] at heqA
          simp only [] at heqA
          by_cases hpm :
              (findModuleNode env b ("module." ++ moduleNameOf t)).1 ≠ ""
          · rw [show (if (splitN2 ((strSplitDot t).getD 1 "")).length > 1 then
                  (splitN2 ((strSplitDot t).getD 1 "")).headD ""
                else (strSplitDot t).getD 1 "") = moduleNameOf t from rfl] at heqA
            rw [if_pos hpm] at heqA
            exact (traverseModuleDirectory_inv (traverseNode_inv env (M + 1))
              _ _ _ 0 _ (g₁, v₁) heqA).1 t (by simp)
          · rw [show (if (splitN2 ((strSplitDot t).getD 1 "")).length > 1 then
                  (splitN2 ((strSplitDot t).getD 1 "")).headD ""
                else (strSplitDot t).getD 1 "") = moduleNameOf t from rfl] at heqA
            rw [if_neg hpm] at heqA
            cases heqA
            simp
        · rw [if_neg hm] at heqA
          cases heqA
          simp
      rw [hloc] at hr
      simp only [] at hr
      have hfin := traverseRefCats_inv (traverseNode_inv env (M + 1))
        ({ node with Depth := 0 }).References _ b 0 v₁ r hr
      have hlk : lookupNode r.1.Nodes t = some { node with Depth := 0 } := by
        rw [hfin.2.2.2.1 t hmem hns]
        exact lookupNode_insertNode_self g₁.Nodes t { node with Depth := 0 }
      exact filter_depth0_singleton r.1.Nodes t { node with Depth := 0 }
        hnodup hlk hother rfl
  · intro env b t M r hr hloc hcond
    rw [buildDependencyGraph,
      show ((⟨[], M⟩ : Graph).MaxDepth + 2) = (M + 1) + 1 from rfl,
      traverseNode_succ] at hr
    rw [if_neg (by simp :
      ¬(0 > (⟨[], M⟩ : Graph).MaxDepth ∨ ([] : List String).contains t = true))] at hr
    rcases hcond with hm | hres
    · rw [if_neg (by rw [hm]; simp : ¬(strStartsWith t "module." = true))] at hr
      simp only [] at hr
      rw [hloc] at hr
      simp only [] at hr
      cases hr
      rfl
    · by_cases hm : strStartsWith t "module." = true
      · rw [if_pos hm] at hr
        simp only [] at hr
        rw [show (if (splitN2 ((strSplitDot t).getD 1 "")).length > 1 then
                (splitN2 ((strSplitDot t).getD 1 "")).headD ""
              else (strSplitDot t).getD 1 "") = moduleNameOf t from rfl] at hr
        rw [if_neg (fun hne => hne hres)] at hr
        simp only [] at hr
        rw [hloc] at hr
        simp only [] at hr
        cases hr
        rfl
      · rw [if_neg hm] at hr
        simp only [] at hr
        rw [hloc] at hr
        simp only [] at hr
        cases hr
        rfl

/-- The `aws_instance.web` Node as the Locator finds it in `e10Env`. -/
def e10WebNode : Node :=
  ⟨"aws_instance.web", "resource", "web", "/b/main.tf",
    [("resource", [⟨"local.ami", "/b/main.tf"⟩])], 0⟩

theorem c3_depth_zero_exclusivity_witness :
    ((⟨[("aws_instance.web", e10WebNode)], 3⟩ : Graph),
        (["aws_instance.web"] : List String)).1.Nodes.filter
        (fun p => p.2.Depth == 0) =
      [("aws_instance.web", { e10WebNode with Depth := 0 })] ∧
    ((⟨[], 3⟩ : Graph), (["x.y"] : List String)).1.Nodes = [] :=
  ⟨c3_depth_zero_exclusivity.1 e10Env "/b" "aws_instance.web" 3
      ((⟨[("aws_instance.web", e10WebNode)], 3⟩ : Graph), ["aws_instance.web"])
      e10WebNode (by decide) (by decide) (by decide),
   c3_depth_zero_exclusivity.2 emptyEnv "/b" "x.y" 3
      ((⟨[], 3⟩ : Graph), ["x.y"]) (by decide) (by decide) (Or.inl (by decide))⟩

/-! ### Claim C4 -/

/-- Any call whose depth exceeds `MaxDepth` returns immediately on the
depth guard (for any positive fuel). -/
theorem traverseNode_deepGuard (env : Env) (f : Nat) (g : Graph) (b id : String)
    (d : Nat) (v : List String) (hf : 0 < f) (h : g.MaxDepth < d) :
    traverseNode env f g b id d v = some (g, v) := by
  cases f with
  | zero => omega
  | succ f' => rw [traverseNode_succ, if_pos (Or.inl h)]

/-- When the next depth already exceeds `MaxDepth`, the reference loop is
an identity: every recursive call returns immediately on the depth
guard. -/
theorem traverseRefList_deep (env : Env) (f : Nat) (b : String) (d : Nat) (hf : 0 < f) :
    ∀ (refs : List Reference) (g : Graph) (v : List String), g.MaxDepth < d + 1 →
      traverseRefList (traverseNode env f) g b d v refs = some (g, v) := by
  intro refs
  induction refs with
  | nil =>
    intro g v hg
    rw [traverseRefList]
  | cons ref rest ih =>
    intro g v hg
    rw [traverseRefList]
    by_cases h1 : (!(strStartsWith ref.ID "var.") && !(strStartsWith ref.ID "local.")) = true
    · simp only [h1, if_true]
      rw [traverseNode_deepGuard env f g b ref.ID (d + 1) v hf hg]
      exact ih g v hg
    · rw [Bool.not_eq_true] at h1
      simp only [h1, Bool.false_eq_true, if_false]
      exact ih g v hg

theorem traverseRefCats_deep (env : Env) (f : Nat) (b : String) (d : Nat) (hf : 0 < f) :
    ∀ (cats : List (String × List Reference)) (g : Graph) (v : List String),
      g.MaxDepth < d + 1 →
      traverseRefCats (traverseNode env f) g b d v cats = some (g, v) := by
  intro cats
  induction cats with
  | nil =>
    intro g v hg
    rw [traverseRefCats]
  | cons cat cats ih =>
    intro g v hg
    rw [traverseRefCats, traverseRefList_deep env f b d hf cat.2 g v hg]
    exact ih g v hg

/-- C4 counterexample: with `maxDepth = 0` and the `module.`-shaped
target `module.net` in `e3Env`, the run stores TWO Nodes: the root and
the module-internal `module.net/aws_subnet.s`.  The module branch of
`traverseNode` expands the module directory before any depth check on
the registration of module-internal nodes, so the Graph can contain
more than the root Node even at `maxDepth = 0`, refuting "contains at
most the root Node". -/
theorem c4_counterexample :
    (buildDependencyGraph e3Env ⟨[], 0⟩ "/b" "module.net").map
      (fun r => r.1.Nodes.map Prod.fst) =
      some ["module.net", "module.net/aws_subnet.s"] := by
  decide

/-- C4 amended: with `maxDepth = 0` and a target that is not
`module.`-shaped, the Graph contains at most the root Node: it is empty
when the Locator misses, and exactly the root Node (registered at depth
0, its own References collection populated as the Locator extracted it)
when the Locator finds the target; no reference of the root becomes a
separate Node.  (For `module.`-shaped targets, module-directory
expansion can add further Nodes — see the counterexample.) -/
theorem c4_depth_bound :
    ∀ (env : Env) (b t : String) (r : TravState),
      strStartsWith t "module." = false →
      buildDependencyGraph env ⟨[], 0⟩ b t = some r →
      (match findResourceNode env b t with
       | none => r.1.Nodes = []
       | some node => r.1.Nodes = [(t, { node with Depth := 0 })]) := by
  intro env b t r hm hr
  rw [buildDependencyGraph,
    show ((⟨[], 0⟩ : Graph).MaxDepth + 2) = 1 + 1 from rfl,
    traverseNode_succ] at hr
  rw [if_neg (by simp :
    ¬(0 > (⟨[], 0⟩ : Graph).MaxDepth ∨ ([] : List String).contains t = true))] at hr
  rw [if_neg (by rw [hm]; simp : ¬(strStartsWith t "module." = true))] at hr
  simp only [] at hr
  cases hloc : findResourceNode env b t with
  | none =>
    rw [hloc] at hr
    simp only [] at hr
    cases hr
    rfl
  | some node =>
    rw [hloc] at hr
    simp only [] at hr
    have hG : (⟨insertNode (⟨[], 0⟩ : Graph).Nodes t { node with Depth := 0 },
        (⟨[], 0⟩ : Graph).MaxDepth⟩ : Graph).MaxDepth < 0 + 1 := Nat.lt_succ_self 0
    rw [traverseRefCats_deep env 1 b 0 (by omega) node.References _ _ hG] at hr
    cases hr
    rfl

theorem c4_depth_bound_witness :
    (match findResourceNode e10Env "/b" "aws_instance.web" with
     | none =>
        ((⟨[("aws_instance.web", e10WebNode)], 0⟩ : Graph),
          (["aws_instance.web"] : List String)).1.Nodes = []
     | some node =>
        ((⟨[("aws_instance.web", e10WebNode)], 0⟩ : Graph),
          (["aws_instance.web"] : List String)).1.Nodes =
          [("aws_instance.web", { node with Depth := 0 })]) :=
  c4_depth_bound e10Env "/b" "aws_instance.web"
    ((⟨[("aws_instance.web", e10WebNode)], 0⟩ : Graph), ["aws_instance.web"])
    (by decide) (by decide)

/-- The C7 scenario environment: the root resource references
`module.net`, whose declared `source` is the non-relative registry
address `registry.example.com/ns/net`. -/
def e7Env : Env :=
  { files := fun p =>
      if p == "/b" then
        [⟨"/b/main.tf", some [
            ⟨"resource", ["aws_instance", "r"],
              [⟨"m", [[.root "module", .attr "net"]], none⟩]⟩,
            ⟨"module", ["net"],
              [⟨"source", [], some "registry.example.com/ns/net"⟩]⟩]⟩]
      else [],
    dirExists := fun _ => false,
    joinPath := fun a b => a ++ "/" ++ b,
    cleanPath := fun s => s,
    isAbsPath := fun s => strStartsWith s "/" }

/-! ### Claim C7 -/

/-- A block's `source` attribute is absent, non-static, or a static
string that is not path-relative (does not start with `"."`). -/
def blockSourceNonRelative (block : Block) : Bool :=
  match (block.attrs.find? (fun a => a.name == "source")).bind Attr.staticVal with
  | none => true
  | some src => !(strStartsWith src ".")

theorem scanModuleBlocks_nonRelative (env : Env) (basePath moduleID moduleName file : String) :
    ∀ blocks : List Block,
      (∀ block ∈ blocks, block.type = "module" →
        block.labels.getD 0 "" = moduleName → blockSourceNonRelative block = true) →
      scanModuleBlocks env basePath moduleID moduleName file blocks = none := by
  intro blocks
  induction blocks with
  | nil =>
    intro _
    rw [scanModuleBlocks]
  | cons block rest ih =>
    intro h
    have hrest := fun b hb => h b (List.mem_cons_of_mem _ hb)
    rw [scanModuleBlocks]
    by_cases hc : block.type = "module" ∧ block.labels.getD 0 "" = moduleName
    · rw [if_pos hc]
      cases hfind : block.attrs.find? (fun a => a.name == "source") with
      | none =>
        exact ih hrest
      | some a =>
        simp only []
        cases hsv : a.staticVal with
        | none =>
          exact ih hrest
        | some src =>
          simp only []
          have hnr := h block (List.mem_cons_self _ _) hc.1 hc.2
          rw [blockSourceNonRelative, hfind, Option.some_bind, hsv] at hnr
          simp only [] at hnr
          have hfalse : strStartsWith src "." = false := by
            cases hsw : strStartsWith src "." with
            | false => rfl
            | true =>
              rw [hsw] at hnr
              exact absurd hnr (by decide)
          simp only [hfalse, Bool.false_eq_true, if_false]
          exact ih hrest
    · rw [if_neg hc]
      exact ih hrest

theorem scanModuleFiles_nonRelative (env : Env) (basePath moduleID moduleName : String) :
    ∀ files : List TFFile,
      (∀ f ∈ files, ∀ block ∈ f.blocks.getD [],
        block.type = "module" → block.labels.getD 0 "" = moduleName →
        blockSourceNonRelative block = true) →
      scanModuleFiles env basePath moduleID moduleName files = none := by
  intro files
  induction files with
  | nil =>
    intro _
    rw [scanModuleFiles]
  | cons f rest ih =>
    intro h
    have hrest := fun f' hf' => h f' (List.mem_cons_of_mem _ hf')
    rw [scanModuleFiles]
    cases hcb : f.blocks with
    | none =>
      rw [show contentBlocks ["module"] f = none from by rw [contentBlocks, hcb]]
      exact ih hrest
    | some bs =>
      rw [show contentBlocks ["module"] f =
          some (bs.filter (fun b => List.contains ["module"] b.type)) from by
        rw [contentBlocks, hcb]]
      simp only []
      rw [scanModuleBlocks_nonRelative env basePath moduleID moduleName f.path _ ?_]
      · exact ih hrest
      · intro block hb hty hlbl
        refine h f (List.mem_cons_self _ _) block ?_ hty hlbl
        rw [hcb]
        exact List.mem_of_mem_filter hb

/-- C7: (1) if every `module`-typed block carrying the resolver's wanted
label in the base directory has a `source` attribute that is absent,
non-static, or a static string not beginning with `"."`, the Module
Resolver reports failure with its sentinel `("", Node{})`;
(2) on a resolver miss, `traverseNode` on a `module.`-shaped identifier
does not call `traverseModuleDirectory` at all: it proceeds directly to
the Locator, registering at most the identifier's own located Node
before recursing on its references (so no module-internal Node is ever
registered for that module);
(3) in the concrete scenario — `module.net` with
`source = "registry.example.com/ns/net"` referenced by the root resource
— the run completes, the Graph holds exactly the root and the module
Node (recorded via the `module` reference, not expanded), and no key in
the Graph has the `moduleID/blockID` shape of a module-internal node. -/
theorem c7_unresolved_module :
    (∀ (env : Env) (basePath moduleID : String),
      (∀ f ∈ env.files basePath, ∀ block ∈ f.blocks.getD [],
        block.type = "module" →
        block.labels.getD 0 "" = (splitN2 (strTrimPre moduleID "module.")).headD "" →
        blockSourceNonRelative block = true) →
      findModuleNode env basePath moduleID = ("", emptyNode)) ∧
    (∀ (env : Env) (f : Nat) (g : Graph) (b id : String) (d : Nat) (v : List String),
      ¬(d > g.MaxDepth ∨ v.contains id = true) →
      strStartsWith id "module." = true →
      (findModuleNode env b ("module." ++ moduleNameOf id)).1 = "" →
      traverseNode env (f + 1) g b id d v =
        (match findResourceNode env b id with
         | none => some (g, id :: v)
         | some node =>
           traverseRefCats (traverseNode env f)
             { g with Nodes := insertNode g.Nodes id { node with Depth := d } }
             b d (id :: v) node.References)) ∧
    (findModuleNode e7Env "/b" "module.net" = ("", emptyNode) ∧
      (buildDependencyGraph e7Env ⟨[], 3⟩ "/b" "aws_instance.r").map
        (fun r => r.1.Nodes.map Prod.fst) = some ["aws_instance.r", "module.net"] ∧
      (buildDependencyGraph e7Env ⟨[], 3⟩ "/b" "aws_instance.r").map
        (fun r => r.1.Nodes.all (fun p => !(p.1.toList.contains '/'))) = some true) := by
  refine ⟨?_, ?_, by decide, by decide, by decide⟩
  · intro env basePath moduleID h
    rw [findModuleNode]
    rw [scanModuleFiles_nonRelative env basePath moduleID
      ((splitN2 (strTrimPre moduleID "module.")).headD "") (env.files basePath) h]
  · intro env f g b id d v hguard hm hres
    rw [traverseNode_succ, if_neg hguard, if_pos hm]
    simp only []
    rw [show (if (splitN2 ((strSplitDot id).getD 1 "")).length > 1 then
            (splitN2 ((strSplitDot id).getD 1 "")).headD ""
          else (strSplitDot id).getD 1 "") = moduleNameOf id from rfl]
    rw [if_neg (fun hne => hne hres)]

theorem c7_unresolved_module_witness :
    findModuleNode e7Env "/b" "module.net" = ("", emptyNode) ∧
    traverseNode e7Env (1 + 1) ⟨[], 3⟩ "/b" "module.net" 0 [] =
      (match findResourceNode e7Env "/b" "module.net" with
       | none => some ((⟨[], 3⟩ : Graph), ["module.net"])
       | some node =>
         traverseRefCats (traverseNode e7Env 1)
           { (⟨[], 3⟩ : Graph) with
              Nodes := insertNode (⟨[], 3⟩ : Graph).Nodes "module.net"
                { node with Depth := 0 } }
           "/b" 0 ["module.net"] node.References) :=
  ⟨c7_unresolved_module.1 e7Env "/b" "module.net" (by decide),
   c7_unresolved_module.2.1 e7Env 1 ⟨[], 3⟩ "/b" "module.net" 0 []
     (by decide) (by decide) (by decide)⟩

/-! ### Claim C9 -/

/-- C9: (1) in general, when `traverseNode` meets an unvisited, in-depth,
slash-free `module.`-shaped identifier whose module resolves but which
the Locator does not find, the run ends with the resolver's module-call
Node stored under the FULL (possibly attribute-suffixed) identifier used
as `nodeID` — not under the trimmed `module.<name>` — at this call's
depth; (2) in the concrete two-spelling scenario `e2Env` (the root
references `module.net`, a sibling resource references `module.net.id`),
the final Graph holds two distinct keys `module.net` and `module.net.id`
for the same module-call declaration (same type `module` and same
declaring file), and the module directory was expanded a second time for
the suffixed spelling: the module-internal `module.net/aws_subnet.s`
ends at Depth 3, the depth of the second expansion. -/
theorem c9_suffixed_module_key :
    (∀ (env : Env) (f : Nat) (g : Graph) (b id : String) (d : Nat)
      (v : List String) (r : TravState),
      traverseNode env (f + 1) g b id d v = some r →
      ¬(d > g.MaxDepth ∨ v.contains id = true) →
      strStartsWith id "module." = true →
      NoSlash id →
      (findModuleNode env b ("module." ++ moduleNameOf id)).1 ≠ "" →
      findResourceNode env b id = none →
      lookupNode r.1.Nodes id =
        some { (findModuleNode env b ("module." ++ moduleNameOf id)).2 with
                Depth := d }) ∧
    (buildDependencyGraph e2Env ⟨[], 3⟩ "/b" "aws_instance.r").map
      (fun r => ((lookupNode r.1.Nodes "module.net").map
          (fun n => (n.type, n.Path, n.Depth)),
        (lookupNode r.1.Nodes "module.net.id").map
          (fun n => (n.type, n.Path, n.Depth)),
        (lookupNode r.1.Nodes "module.net/aws_subnet.s").map Node.Depth)) =
      some (some ("module", "/b/mod.tf", 1), some ("module", "/b/mod.tf", 2),
        some 3) := by
  constructor
  · intro env f g b id d v r hr hguard hm hns hres hloc
    rw [traverseNode_succ, if_neg hguard, if_pos hm] at hr
    simp only [] at hr
    rw [show (if (splitN2 ((strSplitDot id).getD 1 "")).length > 1 then
            (splitN2 ((strSplitDot id).getD 1 "")).headD ""
          else (strSplitDot id).getD 1 "") = moduleNameOf id from rfl] at hr
    rw [if_pos hres] at hr
    split at hr
    · cases hr
    · rename_i g₁ v₁ heqA
      rw [hloc] at hr
      simp only [] at hr
      cases hr
      have hstep := traverseModuleDirectory_inv (traverseNode_inv env f)
        _ _ _ d _ (g₁, v₁) heqA
      rw [hstep.2.2.2.1 id (List.mem_cons_self _ _) hns]
      exact lookupNode_insertNode_self g.Nodes id
        { (findModuleNode env b ("module." ++ moduleNameOf id)).2 with Depth := d }
  · decide

theorem c9_suffixed_module_key_witness :
    lookupNode
        ((⟨[("module.net.id", ⟨"module.net", "module", "net", "/b/mod.tf", [], 0⟩),
            ("module.net/aws_subnet.s",
              ⟨"module.net/aws_subnet.s", "resource", "s", "/b/./m/s.tf", [], 1⟩)],
          3⟩ : Graph), (["module.net.id"] : List String)).1.Nodes "module.net.id" =
      some { (findModuleNode e3Env "/b" ("module." ++ moduleNameOf "module.net.id")).2
              with Depth := 0 } :=
  c9_suffixed_module_key.1 e3Env 4 ⟨[], 3⟩ "/b" "module.net.id" 0 []
    ((⟨[("module.net.id", ⟨"module.net", "module", "net", "/b/mod.tf", [], 0⟩),
        ("module.net/aws_subnet.s",
          ⟨"module.net/aws_subnet.s", "resource", "s", "/b/./m/s.tf", [], 1⟩)],
      3⟩ : Graph), ["module.net.id"])
    (by decide) (by decide) (by decide) (by decide) (by decide) (by decide)

end Terrafig

